import Mathlib

/-!
Verification of the Crest HTTP framework core against its specification.

Each definition is a shallow embedding of a function of the C sources:
the JSON engine (src/src/utils/json.c), the route table (src/src/core/app.c
and src/src/core/router.c), route pattern matching and request handling
(src/src/core/server.c), the response setters (src/src/core/response.c),
the request accessors (src/src/core/request.c) and the worker pool
(src/src/core/thread_pool.c).  C strings are `List Char` or `String`,
heap trees are inductive values, `NULL`-failure is `Except`/`Option`.
-/

namespace Crest

/- ===================== JSON engine: data model ===================== -/

/-- The tagged union `struct crest_json_value` of src/src/utils/json.c.
Numbers are `double` in C; they are modelled as exact rationals, which is
faithful on the integer-formatting branch of the serializer (see
`stringifyVal`).  Object entries are the parallel `keys`/`values` arrays. -/
inductive JsonValue where
  | null : JsonValue
  | bool (b : Bool) : JsonValue
  | num (q : ℚ) : JsonValue
  | str (s : List Char) : JsonValue
  | arr (items : List JsonValue) : JsonValue
  | obj (entries : List (List Char × JsonValue)) : JsonValue

/-- `crest_json_set`: replace the value at an existing key in place,
otherwise append the pair (json.c, crest_json_set). -/
def jsonSet : List (List Char × JsonValue) → List Char → JsonValue →
    List (List Char × JsonValue)
  | [], k, v => [(k, v)]
  | (k0, v0) :: rest, k, v =>
    if k0 = k then (k0, v) :: rest else (k0, v0) :: jsonSet rest k v

/-- `crest_json_get`: first entry with a matching key (json.c, crest_json_get). -/
def jsonGet : List (List Char × JsonValue) → List Char → Option JsonValue
  | [], _ => none
  | (k0, v0) :: rest, k => if k0 = k then some v0 else jsonGet rest k

/- ===================== JSON engine: parser ===================== -/

/-- The whitespace set of `skip_whitespace` (json.c). -/
def isWs (c : Char) : Bool :=
  c = ' ' || c = '\t' || c = '\n' || c = '\r'

/-- `skip_whitespace` (json.c). -/
def skipWs (s : List Char) : List Char := s.dropWhile isWs

/-- The escape table of `parse_string` (json.c): `\u` and unknown escapes
are rejected there, so they are not in this table. -/
def escChar (e : Char) : Option Char :=
  if e = '"' then some '"'
  else if e = '\\' then some '\\'
  else if e = '/' then some '/'
  else if e = 'b' then some '\x08'
  else if e = 'f' then some '\x0c'
  else if e = 'n' then some '\n'
  else if e = 'r' then some '\r'
  else if e = 't' then some '\t'
  else none

/-- The scan loop of `parse_string` (json.c, after the opening quote):
copies characters verbatim, translates the supported escapes, hard-fails
on `\u` and on unknown escapes, fails at end of input. -/
def parseStringLoop : List Char → Except String (List Char × List Char)
  | [] => .error "Unterminated string"
  | c :: rest =>
    if c = '"' then .ok ([], rest)
    else if c = '\\' then
      match rest with
      | [] => .error "Unexpected end in escape sequence"
      | e :: rest2 =>
        if e = 'u' then .error "Unicode escapes not fully supported yet"
        else
          match escChar e with
          | some ec => (parseStringLoop rest2).map (fun p => (ec :: p.1, p.2))
          | none => .error "Invalid escape sequence"
    else (parseStringLoop rest).map (fun p => (c :: p.1, p.2))

/-- `parse_string` (json.c): requires the opening quote, then scans. -/
def parseString : List Char → Except String (List Char × List Char)
  | [] => .error "Expected opening quote at start of string"
  | c :: rest =>
    if c = '"' then parseStringLoop rest
    else .error "Expected opening quote at start of string"

/-- Numeric value of a decimal digit character. -/
def digitVal (c : Char) : Nat := c.toNat - 48

/-- Value of a list of decimal digits, most significant first. -/
def digitsVal (ds : List Char) : Nat := ds.foldl (fun a c => 10 * a + digitVal c) 0

/-- Fractional part of `parse_number` (json.c): an optional point which,
when present, requires at least one digit. -/
def parseFrac : List Char → Except String (List Char × List Char)
  | '.' :: rest =>
    match rest with
    | c :: _ =>
      if c.isDigit then .ok (rest.takeWhile Char.isDigit, rest.dropWhile Char.isDigit)
      else .error "Invalid number: expected digit after decimal point"
    | [] => .error "Invalid number: expected digit after decimal point"
  | s => .ok ([], s)

/-- Exponent part of `parse_number` (json.c): optional `e`/`E`, optional
sign, then at least one digit. -/
def parseExp : List Char → Except String (Int × List Char)
  | [] => .ok (0, [])
  | c :: rest =>
    if c = 'e' ∨ c = 'E' then
      let sgn : Int := if rest.head? = some '-' then -1 else 1
      let r1 := if rest.head? = some '-' ∨ rest.head? = some '+' then rest.tail else rest
      match r1 with
      | d :: _ =>
        if d.isDigit then
          .ok (sgn * (digitsVal (r1.takeWhile Char.isDigit) : Int), r1.dropWhile Char.isDigit)
        else .error "Invalid number: expected digit in exponent"
      | [] => .error "Invalid number: expected digit in exponent"
    else .ok (0, c :: rest)

/-- `parse_number` (json.c): optional minus, an integer part with the
leading-zero rule (a leading `0` is consumed alone), optional fraction and
exponent, then conversion.  C converts with `strtod` to a `double`; the
model takes the exact rational value of the literal. -/
def parseNumber (s : List Char) : Except String (JsonValue × List Char) :=
  let neg := s.head? = some '-'
  let s1 := if neg then s.tail else s
  match s1 with
  | [] => .error "Invalid number"
  | c :: rest =>
    if c.isDigit then
      let intDigits := if c = '0' then [c] else s1.takeWhile Char.isDigit
      let s2 := if c = '0' then rest else s1.dropWhile Char.isDigit
      match parseFrac s2 with
      | .error e => .error e
      | .ok (fracDigits, s3) =>
        match parseExp s3 with
        | .error e => .error e
        | .ok (ex, s4) =>
          let mag : ℚ :=
            ((digitsVal intDigits : ℚ) + (digitsVal fracDigits : ℚ) / 10 ^ fracDigits.length)
              * (10 : ℚ) ^ ex
          .ok (.num (if neg then -mag else mag), s4)
    else .error "Invalid number"

/-- `parse_literal` (json.c): match the literal text exactly. -/
def parseLiteral (lit : List Char) (v : JsonValue) (s : List Char) :
    Except String (JsonValue × List Char) :=
  if s.length < lit.length then .error "Unexpected end while parsing literal"
  else if lit.isPrefixOf s then .ok (v, s.drop lit.length)
  else .error "Invalid literal"

mutual

/-- `parse_value` (json.c): skip whitespace, dispatch on the first
character.  The `fuel` argument bounds the recursion depth of the model;
`crest_json_parse` supplies more fuel than any input can consume. -/
def parseValue : Nat → List Char → Except String (JsonValue × List Char)
  | 0, _ => .error "Recursion limit exceeded"
  | fuel + 1, s =>
    match skipWs s with
    | [] => .error "Unexpected end of input"
    | c :: cs =>
      if c = '\x7b' then parseObject fuel (c :: cs)
      else if c = '[' then parseArray fuel (c :: cs)
      else if c = '"' then
        match parseString (c :: cs) with
        | .error e => .error e
        | .ok (t, rest) => .ok (.str t, rest)
      else if c = 't' then parseLiteral "true".data (.bool true) (c :: cs)
      else if c = 'f' then parseLiteral "false".data (.bool false) (c :: cs)
      else if c = 'n' then parseLiteral "null".data .null (c :: cs)
      else if c = '-' ∨ c.isDigit then parseNumber (c :: cs)
      else .error "Unexpected character"

/-- `parse_array` (json.c): the opening bracket, the empty-array case,
then the element loop. -/
def parseArray : Nat → List Char → Except String (JsonValue × List Char)
  | _, [] => .error "Expected bracket at start of array"
  | fuel, c :: rest =>
    if c = '[' then
      let r1 := skipWs rest
      if r1.head? = some ']' then .ok (.arr [], r1.tail)
      else parseArrayLoop fuel [] r1
    else .error "Expected bracket at start of array"

/-- The element loop of `parse_array` (json.c): value, then `]` or `,`;
an exhausted input at the loop head is an unterminated array. -/
def parseArrayLoop : Nat → List JsonValue → List Char → Except String (JsonValue × List Char)
  | _, _, [] => .error "Unterminated array"
  | 0, _, _ :: _ => .error "Recursion limit exceeded"
  | fuel + 1, acc, s =>
    match parseValue fuel s with
    | .error e => .error e
    | .ok (v, r1) =>
      match skipWs r1 with
      | [] => .error "Unexpected end in array"
      | c :: r3 =>
        if c = ']' then .ok (.arr (acc ++ [v]), r3)
        else if c = ',' then parseArrayLoop fuel (acc ++ [v]) (skipWs r3)
        else .error "Expected comma or close bracket in array"

/-- `parse_object` (json.c): the opening brace, the empty-object case,
then the member loop. -/
def parseObject : Nat → List Char → Except String (JsonValue × List Char)
  | _, [] => .error "Expected brace at start of object"
  | fuel, c :: rest =>
    if c = '\x7b' then
      let r1 := skipWs rest
      if r1.head? = some '\x7d' then .ok (.obj [], r1.tail)
      else parseObjectLoop fuel [] r1
    else .error "Expected brace at start of object"

/-- The member loop of `parse_object` (json.c): key string, colon, value
(inserted with `crest_json_set`, so a repeated key replaces in place),
then `\x7d` or `,`. -/
def parseObjectLoop : Nat → List (List Char × JsonValue) → List Char →
    Except String (JsonValue × List Char)
  | _, _, [] => .error "Unterminated object"
  | 0, _, _ :: _ => .error "Recursion limit exceeded"
  | fuel + 1, acc, s =>
    let s1 := skipWs s
    if s1.head? = some '"' then
      match parseString s1 with
      | .error e => .error e
      | .ok (key, r1) =>
        let r2 := skipWs r1
        if r2.head? = some ':' then
          match parseValue fuel (skipWs r2.tail) with
          | .error e => .error e
          | .ok (v, r4) =>
            match skipWs r4 with
            | [] => .error "Unexpected end in object"
            | c :: r6 =>
              if c = '\x7d' then .ok (.obj (jsonSet acc key v), r6)
              else if c = ',' then parseObjectLoop fuel (jsonSet acc key v) r6
              else .error "Expected comma or close brace in object"
        else .error "Expected colon after key in object"
    else .error "Expected string key in object"

end

/-- `crest_json_parse` (json.c): parse one value, then reject trailing
non-whitespace.  On failure nothing but the diagnostic is returned. -/
def crest_json_parse (s : String) : Except String JsonValue :=
  match parseValue (s.length + 1) s.data with
  | .error e => .error e
  | .ok (v, rest) =>
    if (skipWs rest).isEmpty then .ok v
    else .error "Extra data after value"

/- ===================== JSON engine: serializer ===================== -/

/-- Lowercase hexadecimal digit, as printed by the `%04x` of
`escape_string` (json.c). -/
def hexDigit (n : Nat) : Char :=
  if n < 10 then Char.ofNat (48 + n) else Char.ofNat (87 + n)

/-- Per-character output of `escape_string` (json.c): the quote, the
backslash and the five short escapes are escaped, any other control
character becomes `\u00xx`, everything else is copied. -/
def escCharOut (c : Char) : List Char :=
  if c = '"' then ['\\', '"']
  else if c = '\\' then ['\\', '\\']
  else if c = '\x08' then ['\\', 'b']
  else if c = '\x0c' then ['\\', 'f']
  else if c = '\n' then ['\\', 'n']
  else if c = '\r' then ['\\', 'r']
  else if c = '\t' then ['\\', 't']
  else if c.toNat < 32 then
    ['\\', 'u', '0', '0', hexDigit (c.toNat / 16), hexDigit (c.toNat % 16)]
  else [c]

/-- `escape_string` (json.c): a quoted, escaped string. -/
def escapeString (s : List Char) : List Char :=
  '"' :: s.flatMap escCharOut ++ ['"']

/-- The decimal digit character for a value below ten. -/
def digitChar (n : Nat) : Char :=
  if n = 0 then '0' else if n = 1 then '1' else if n = 2 then '2' else if n = 3 then '3'
  else if n = 4 then '4' else if n = 5 then '5' else if n = 6 then '6' else if n = 7 then '7'
  else if n = 8 then '8' else '9'

/-- Decimal digits of a natural number, the output of C's `%lld` for a
nonnegative value. -/
def natToDigits (n : Nat) : List Char :=
  if _h : n < 10 then [digitChar n]
  else natToDigits (n / 10) ++ [digitChar (n % 10)]
decreasing_by exact Nat.div_lt_self (by omega) (by omega)

/-- Decimal text of an integer, the output of `snprintf` with `%lld`
in `crest_json_stringify` (json.c). -/
def intToDecimal (m : Int) : List Char :=
  if m < 0 then '-' :: natToDigits m.natAbs else natToDigits m.natAbs

mutual

/-- `crest_json_stringify` (json.c): minified output.  For numbers the C
prints `%lld` when the double has zero fractional part and `%.17g`
otherwise; in the exact-rational model the first branch is the
denominator-one case, and the `%.17g` branch (pure IEEE-754 formatting,
outside the model) is left as an inert placeholder character. -/
def stringifyVal : JsonValue → List Char
  | .null => "null".data
  | .bool true => "true".data
  | .bool false => "false".data
  | .num q => if q.den = 1 then intToDecimal q.num else ['?']
  | .str s => escapeString s
  | .arr vs => '[' :: stringifyList vs ++ [']']
  | .obj es => '\x7b' :: stringifyEntries es ++ ['\x7d']

/-- Array elements joined by commas (the array case of
`crest_json_stringify`). -/
def stringifyList : List JsonValue → List Char
  | [] => []
  | [v] => stringifyVal v
  | v :: vs => stringifyVal v ++ ',' :: stringifyList vs

/-- Object members `key:value` joined by commas (the object case of
`crest_json_stringify`). -/
def stringifyEntries : List (List Char × JsonValue) → List Char
  | [] => []
  | [(k, v)] => escapeString k ++ ':' :: stringifyVal v
  | (k, v) :: es => escapeString k ++ ':' :: stringifyVal v ++ ',' :: stringifyEntries es

end

/-- `crest_json_stringify` at the `char *` interface. -/
def crest_json_stringify (v : JsonValue) : String := (stringifyVal v).asString

/- ============== JSON engine: value predicates for round trips ============== -/

/-- A character whose escaped form reparses: every control character other
than the five with short escapes serializes to `\u00xx`, which
`parse_string` rejects. -/
def cleanChar (c : Char) : Bool :=
  decide (32 ≤ c.toNat) || c = '\x08' || c = '\t' || c = '\n' || c = '\x0c' || c = '\r'

/-- All characters of a string reparse after escaping. -/
def cleanStr (s : List Char) : Bool := s.all cleanChar

mutual

/-- Every string (and object key) in the tree reparses after escaping. -/
def cleanVal : JsonValue → Bool
  | .null => true
  | .bool _ => true
  | .num _ => true
  | .str s => cleanStr s
  | .arr vs => cleanList vs
  | .obj es => cleanEntries es

/-- `cleanVal` on every element. -/
def cleanList : List JsonValue → Bool
  | [] => true
  | v :: vs => cleanVal v && cleanList vs

/-- `cleanStr` on every key and `cleanVal` on every member value. -/
def cleanEntries : List (List Char × JsonValue) → Bool
  | [] => true
  | (k, v) :: es => cleanStr k && cleanVal v && cleanEntries es

end

mutual

/-- Every number in the tree is integral, i.e. takes the `%lld` branch of
the serializer. -/
def intNums : JsonValue → Bool
  | .null => true
  | .bool _ => true
  | .num q => q.den = 1
  | .str _ => true
  | .arr vs => intNumsList vs
  | .obj es => intNumsEntries es

/-- `intNums` on every element. -/
def intNumsList : List JsonValue → Bool
  | [] => true
  | v :: vs => intNums v && intNumsList vs

/-- `intNums` on every member value. -/
def intNumsEntries : List (List Char × JsonValue) → Bool
  | [] => true
  | (_, v) :: es => intNums v && intNumsEntries es

end

mutual

/-- Keys are pairwise distinct in every object of the tree (which
`crest_json_set` guarantees for parsed trees). -/
def uniqKeys : JsonValue → Bool
  | .null => true
  | .bool _ => true
  | .num _ => true
  | .str _ => true
  | .arr vs => uniqKeysList vs
  | .obj es => decide (es.map Prod.fst).Nodup && uniqKeysEntries es

/-- `uniqKeys` on every element. -/
def uniqKeysList : List JsonValue → Bool
  | [] => true
  | v :: vs => uniqKeys v && uniqKeysList vs

/-- `uniqKeys` on every member value. -/
def uniqKeysEntries : List (List Char × JsonValue) → Bool
  | [] => true
  | (_, v) :: es => uniqKeys v && uniqKeysEntries es

end

mutual

/-- Fuel needed by `parseValue` to reparse a printed tree: one unit per
node plus one per element/member loop step. -/
def jsize : JsonValue → Nat
  | .arr vs => 1 + jsizeList vs
  | .obj es => 1 + jsizeEntries es
  | _ => 1

/-- Sum of `jsize` plus one per element. -/
def jsizeList : List JsonValue → Nat
  | [] => 0
  | v :: vs => jsize v + 1 + jsizeList vs

/-- Sum of member-value `jsize` plus one per member. -/
def jsizeEntries : List (List Char × JsonValue) → Nat
  | [] => 0
  | (_, v) :: es => jsize v + 1 + jsizeEntries es

end

/- ===================== Response model (response.c) ===================== -/

/-- `CREST_MAX_HEADERS` (types.h). -/
def CREST_MAX_HEADERS : Nat := 64

/-- `struct crest_response` (types.h): status, headers, body, `sent`.
The body is `Option` because the C field starts as `NULL`. -/
structure Response where
  status_code : Nat
  headers : List (String × String)
  body : Option String
  body_len : Nat
  sent : Bool
deriving Repr, DecidableEq

/-- `create_response` (server.c): `calloc` zeroes every field. -/
def createResponse : Response :=
  { status_code := 0, headers := [], body := none, body_len := 0, sent := false }

/-- `crest_response_status` (response.c). -/
def crest_response_status (res : Response) (status : Nat) : Response :=
  { res with status_code := status }

/-- `crest_response_header` (response.c): append unless the table is full. -/
def crest_response_header (res : Response) (key value : String) : Response :=
  if CREST_MAX_HEADERS ≤ res.headers.length then res
  else { res with headers := res.headers ++ [(key, value)] }

/-- ASCII lowercase, the per-character behavior of `strcasecmp`. -/
def asciiLower (c : Char) : Char :=
  if 'A' ≤ c ∧ c ≤ 'Z' then Char.ofNat (c.toNat + 32) else c

/-- `strcasecmp` equality (response.c compares header keys with it). -/
def strCaseEq (a b : String) : Bool :=
  a.data.map asciiLower = b.data.map asciiLower

/-- The `strcasecmp` search for a `Content-Type` header in
`crest_response_send` (response.c). -/
def hasContentType (headers : List (String × String)) : Bool :=
  headers.any fun h => strCaseEq h.1 "Content-Type"

/-- `crest_response_send` (response.c): unconditionally replaces the body
and length, sets `sent`, and adds a default `Content-Type` when none is
present.  The `sent` flag is never read. -/
def crest_response_send (res : Response) (body : String) : Response :=
  let res1 := { res with body := some body, body_len := body.length, sent := true }
  if hasContentType res1.headers then res1
  else crest_response_header res1 "Content-Type" "text/plain"

/-- `crest_response_json` (response.c): `application/json` header, then
`crest_response_send`. -/
def crest_response_json (res : Response) (json : String) : Response :=
  crest_response_send (crest_response_header res "Content-Type" "application/json") json

/- =============== Route table (app.c register_route) =============== -/

/-- `CREST_MAX_ROUTES` (types.h). -/
def CREST_MAX_ROUTES : Nat := 256

/-- `CREST_MAX_PARAMS` (types.h). -/
def CREST_MAX_PARAMS : Nat := 32

/-- `struct crest_route` (types.h), with the handler pointer abstracted to
a type parameter. -/
structure Route (H : Type) where
  method : Nat
  path : String
  handler : H
  description : Option String
  is_pattern : Bool
  pattern : Option String
deriving DecidableEq

/-- `strchr(s, c) != NULL`: the string contains the character. -/
def strchrB (s : String) (c : Char) : Bool :=
  s.data.any fun x => x = c

/-- The route fields written by `register_route` (app.c) for a path:
`is_pattern` is true iff the path text contains `:` or `*`, and `pattern`
is a copy of the path exactly when `is_pattern`. -/
def mkRegisteredRoute {H : Type} (method : Nat) (path : String) (handler : H)
    (description : Option String) : Route H :=
  let isPat := strchrB path ':' || strchrB path '*'
  { method := method, path := path, handler := handler, description := description,
    is_pattern := isPat, pattern := if isPat then some path else none }

/-- The duplicate scan of `register_route` (app.c): same method and equal
path text. -/
def routeMatches {H : Type} (r : Route H) (method : Nat) (path : String) : Bool :=
  r.method = method && r.path = path

/-- Overwrite the first route with this `(method, path)` in place
(the duplicate branch of `register_route`, app.c). -/
def overwriteRoute {H : Type} : List (Route H) → Nat → String → H → Option String →
    List (Route H)
  | [], _, _, _, _ => []
  | r :: rs, method, path, handler, description =>
    if routeMatches r method path then
      mkRegisteredRoute method path handler description :: rs
    else r :: overwriteRoute rs method path handler description

/-- `register_route` (app.c): a full table drops the registration (the
capacity check runs before the duplicate scan); a duplicate `(method,
path)` overwrites in place; otherwise the route is appended. -/
def register_route {H : Type} (routes : List (Route H)) (method : Nat) (path : String)
    (handler : H) (description : Option String) : List (Route H) :=
  if CREST_MAX_ROUTES ≤ routes.length then routes
  else if routes.any fun r => routeMatches r method path then
    overwriteRoute routes method path handler description
  else routes ++ [mkRegisteredRoute method path handler description]

/-- `router_register_route` (router.c): same shape as `register_route`,
but every route is written with `is_pattern = false` and `pattern = NULL`
("Simple route - no pattern matching for now"). -/
def router_register_route {H : Type} (routes : List (Route H)) (method : Nat)
    (path : String) (handler : H) (description : Option String) : List (Route H) :=
  let plain : Route H :=
    { method := method, path := path, handler := handler, description := description,
      is_pattern := false, pattern := none }
  if CREST_MAX_ROUTES ≤ routes.length then routes
  else
    match routes.findIdx? fun r => routeMatches r method path with
    | some i => routes.set i plain
    | none => routes ++ [plain]

/- =============== Pattern matching (server.c match_route_pattern) =============== -/

/-- The scan loop of `match_route_pattern` (server.c).  `p` is the
pattern, `u` the path; captured parameters are appended to `params`
(dropped beyond `CREST_MAX_PARAMS`, as in the C).  A `:` element takes
the name up to the next `/`, requires a nonempty captured segment, and
consumes the path up to the next `/`; `*` matches everything from that
point; other characters must match exactly; after the loop both sides
must be exhausted. -/
def matchLoop : List Char → List Char → List (String × String) →
    Bool × List (String × String)
  | [], u, params => (u.isEmpty, params)
  | _ :: _, [], params => (false, params)
  | c :: prest, d :: urest, params =>
    if c = ':' then
      let name := prest.takeWhile fun x => x ≠ '/'
      let p2 := prest.dropWhile fun x => x ≠ '/'
      if name.isEmpty then (false, params)
      else if d = '/' then (false, params)
      else
        let value := d :: urest.takeWhile fun x => x ≠ '/'
        let u2 := urest.dropWhile fun x => x ≠ '/'
        matchLoop p2 u2
          (if params.length < CREST_MAX_PARAMS then
            params ++ [(name.asString, value.asString)]
          else params)
    else if c = '*' then (true, params)
    else if c = d then matchLoop prest urest params
    else (false, params)
termination_by _ u _ => u.length
decreasing_by
  · exact Nat.lt_succ_of_le ((List.dropWhile_sublist _).length_le)
  · exact Nat.lt_succ_self _

/-- `match_route_pattern` (server.c) at the string interface. -/
def match_route_pattern (pattern path : String) (params : List (String × String)) :
    Bool × List (String × String) :=
  matchLoop pattern.data path.data params

/- =============== Request model and wire parsing (server.c parse_request) =============== -/

/-- `CREST_MAX_QUERY_PARAMS` (types.h). -/
def CREST_MAX_QUERY_PARAMS : Nat := 32

/-- `struct crest_request` (types.h), restricted to the fields
`parse_request` fills; `calloc` zeroes the rest. -/
structure Request where
  method : Nat
  path : String
  query_params : List (String × String)
  headers : List (String × String)
  body : Option String
  body_len : Nat
  path_params : List (String × String)

/-- The whitespace set that `sscanf` `%s` skips. -/
def isScanSpace (c : Char) : Bool :=
  c = ' ' || c = '\t' || c = '\n' || c = '\r' || c = '\x0b' || c = '\x0c'

/-- One `%Ns` conversion of `sscanf`: skip whitespace, then read at most
`width` non-whitespace characters (a longer token is split, its remainder
left for the next conversion). -/
def scanToken (width : Nat) (s : List Char) : Option (List Char × List Char) :=
  match s.dropWhile isScanSpace with
  | [] => none
  | c :: cs =>
    let tok := ((c :: cs).takeWhile fun x => !isScanSpace x).take width
    some (tok, (c :: cs).drop tok.length)

/-- `CREST_GET` (crest.h): first enumerator, value 0 — also the value a
`calloc`-zeroed request carries. -/
def CREST_GET : Nat := 0

/-- The method tokens recognized by `parse_request` (server.c). -/
def knownMethodTokens : List String :=
  ["GET", "POST", "PUT", "DELETE", "PATCH", "HEAD", "OPTIONS"]

/-- The method if-chain of `parse_request` (server.c): an unrecognized
token leaves the `calloc` value 0 = `CREST_GET` in place. -/
def methodOfToken (t : String) : Nat :=
  if t = "GET" then 0
  else if t = "POST" then 1
  else if t = "PUT" then 2
  else if t = "DELETE" then 3
  else if t = "PATCH" then 4
  else if t = "HEAD" then 5
  else if t = "OPTIONS" then 6
  else 0

/-- `strchr` followed by splitting at the found character. -/
def splitAtChar (c : Char) : List Char → List Char × Option (List Char)
  | [] => ([], none)
  | d :: rest =>
    if d = c then ([], some rest)
    else
      let p := splitAtChar c rest
      (d :: p.1, p.2)

/-- `strtok`: maximal runs of non-delimiter characters (empty tokens are
never produced). -/
def tokenize (isDelim : Char → Bool) : List Char → List (List Char)
  | [] => []
  | c :: rest =>
    if isDelim c then tokenize isDelim rest
    else
      (c :: rest.takeWhile fun x => !isDelim x) ::
        tokenize isDelim (rest.dropWhile fun x => !isDelim x)
termination_by s => s.length
decreasing_by
  · exact Nat.lt_succ_self _
  · exact Nat.lt_succ_of_le ((List.dropWhile_sublist _).length_le)

/-- One `key=value` query token (server.c): a token without `=` is
skipped. -/
def queryPair (tok : List Char) : Option (String × String) :=
  match splitAtChar '=' tok with
  | (k, some v) => some (k.asString, v.asString)
  | (_, none) => none

/-- The query loop of `parse_request` (server.c): stop once
`CREST_MAX_QUERY_PARAMS` pairs are collected. -/
def collectQuery : List (List Char) → Nat → List (String × String)
  | [], _ => []
  | t :: ts, cnt =>
    if CREST_MAX_QUERY_PARAMS ≤ cnt then []
    else
      match queryPair t with
      | some kv => kv :: collectQuery ts (cnt + 1)
      | none => collectQuery ts cnt

/-- One header line (server.c): split at the first colon, skip the
value's leading spaces; a line without a colon is skipped. -/
def headerPair (tok : List Char) : Option (String × String) :=
  match splitAtChar ':' tok with
  | (k, some v) => some (k.asString, (v.dropWhile fun c => c = ' ').asString)
  | (_, none) => none

/-- The header loop of `parse_request` (server.c), capped at
`CREST_MAX_HEADERS`. -/
def collectHeaders : List (List Char) → Nat → List (String × String)
  | [], _ => []
  | t :: ts, cnt =>
    if CREST_MAX_HEADERS ≤ cnt then []
    else
      match headerPair t with
      | some kv => kv :: collectHeaders ts (cnt + 1)
      | none => collectHeaders ts cnt

/-- `strstr(raw, CRLF CRLF)` and the skip past it (the body search of
`parse_request`). -/
def afterHeaderBlank : List Char → Option (List Char)
  | '\r' :: '\n' :: '\r' :: '\n' :: rest => some rest
  | _ :: rest => afterHeaderBlank rest
  | [] => none

/-- `parse_request` (server.c): `sscanf` of the request line (failure of
any of the three conversions returns `NULL`), the method if-chain, the
path/query split, the header lines after the first newline, and the body
after the first blank line. -/
def parse_request (raw : String) : Option Request :=
  match scanToken 15 raw.data with
  | none => none
  | some (m, r1) =>
    match scanToken 511 r1 with
    | none => none
    | some (pth, r2) =>
      match scanToken 15 r2 with
      | none => none
      | some _ =>
        let pq := splitAtChar '?' pth
        let query :=
          match pq.2 with
          | some q => collectQuery (tokenize (fun c => c = '&') q) 0
          | none => []
        let headerPart := (splitAtChar '\n' raw.data).2
        let headers :=
          match headerPart with
          | some h => collectHeaders (tokenize (fun c => c = '\r' || c = '\n') h) 0
          | none => []
        let body :=
          match afterHeaderBlank raw.data with
          | some b => if b.isEmpty then none else some b.asString
          | none => none
        some
          { method := methodOfToken m.asString, path := pq.1.asString,
            query_params := query, headers := headers, body := body,
            body_len := (body.map String.length).getD 0, path_params := [] }

/-- `crest_request_method` (request.c): the stored method value. -/
def crest_request_method (req : Request) : Nat := req.method

/- =============== Routing and the 404 payload (server.c) =============== -/

/-- `find_route` (server.c): linear scan in registration order; pattern
routes probe with `match_route_pattern` on a throwaway parameter list,
exact routes compare the full path. -/
def find_route {H : Type} : List (Route H) → Nat → String → Option (Route H)
  | [], _, _ => none
  | r :: rs, method, path =>
    if r.method = method &&
        (if r.is_pattern then (match_route_pattern r.path path []).1
         else r.path = path) then
      some r
    else find_route rs method path

/-- `CREST_VERSION` (crest.h). -/
def CREST_VERSION : String := "1.0.0"

/-- The `method_str` array (server.c); the C indexes it with the request
method, which is in `0..6` for any parsed request. -/
def methodName (m : Nat) : String :=
  ["GET", "POST", "PUT", "DELETE", "PATCH", "HEAD", "OPTIONS"].getD m "GET"

/-- One `available_routes` entry of `generate_detailed_404_error`
(server.c): the description field is included only when present. -/
def routeEntryStr {H : Type} (r : Route H) : String :=
  match r.description with
  | some d =>
    "\x7b\"method\":\"" ++ methodName r.method ++ "\",\"path\":\"" ++ r.path ++
      "\",\"description\":\"" ++ d ++ "\"\x7d"
  | none =>
    "\x7b\"method\":\"" ++ methodName r.method ++ "\",\"path\":\"" ++ r.path ++ "\"\x7d"

/-- The `available_routes` concatenation loop of
`generate_detailed_404_error` (server.c): a comma before every entry but
the first. -/
def catRoutes {H : Type} : List (Route H) → Bool → String
  | [], _ => ""
  | r :: rs, first => (if first then "" else ",") ++ routeEntryStr r ++ catRoutes rs false

/-- `generate_detailed_404_error` (server.c): the structured 404 body.
The route list is truncated to the first 10 entries; the third warning
appears only for an empty table.  (The C builds this in a fixed 4096-byte
buffer; truncation beyond it is not modelled.) -/
def generate_detailed_404_error {H : Type} (routes : List (Route H)) (req : Request)
    (timestamp : String) : String :=
  "\x7b\"error\":\"Not Found\",\"message\":\"Route not found\",\"details\":\x7b\"requested_path\":\"" ++
    req.path ++ "\",\"requested_method\":\"" ++ methodName req.method ++
    "\",\"timestamp\":\"" ++ timestamp ++ "\",\"server\":\"Crest/" ++ CREST_VERSION ++
    "\"\x7d,\"suggestions\":[\"Check if the URL is correct and properly encoded\",\"Ensure you\x27re using the correct HTTP method (GET, POST, etc.)\",\"Verify that the endpoint exists in your application\",\"Check for trailing slashes or case sensitivity issues\"],\"available_routes\":[" ++
    catRoutes (routes.take 10) true ++
    "],\"warnings\":[\"This endpoint does not exist in the application\",\"Consider checking the API documentation or dashboard\"" ++
    (if routes.length = 0 then ",\"No routes have been registered with the application\"" else "") ++
    "]\x7d"

/-- An application as `handle_connection` (server.c) sees it: the route
table (handlers are request transformers) and the middleware chain. -/
structure App where
  routes : List (Route (Request → Response → Response))
  middleware : List (Request → Response → Bool × Response)

/-- The middleware loop of `handle_connection` (server.c): run in order,
stop at the first `false`. -/
def runMiddleware : List (Request → Response → Bool × Response) → Request → Response →
    Bool × Response
  | [], _, res => (true, res)
  | m :: ms, req, res =>
    let r := m req res
    if r.1 then runMiddleware ms req r.2 else (false, r.2)

/-- `handle_connection` (server.c) after a successful parse: middleware,
route lookup, parameter extraction for pattern routes, handler or the
structured 404, and the status default of 200.  The wall-clock timestamp
is passed in. -/
def handle_request (app : App) (req : Request) (timestamp : String) : Response :=
  let mw := runMiddleware app.middleware req createResponse
  let res2 :=
    if mw.1 then
      match find_route app.routes req.method req.path with
      | some route =>
        let req2 :=
          if route.is_pattern then
            { req with path_params := (match_route_pattern route.path req.path req.path_params).2 }
          else req
        route.handler req2 mw.2
      | none =>
        crest_response_json (crest_response_status mw.2 404)
          (generate_detailed_404_error app.routes req timestamp)
    else mw.2
  if res2.status_code = 0 then { res2 with status_code := 200 } else res2

/- =============== Worker pool sizing (thread_pool.c) =============== -/

/-- The `size_t` value of a `long`: conversion modulo `2^64` (the
assignment `thread_count = sysconf(...)` in `crest_thread_pool_create`). -/
def sizeOfLong (d : Int) : Nat := (d % (2 : Int) ^ 64).toNat

/-- The thread-count resolution of `crest_thread_pool_create`
(thread_pool.c): a zero request consults the detected core count
(`thread_count <= 0` on the unsigned `size_t` is only true at zero), with
4 as the fallback. -/
def resolveThreadCount (requested : Nat) (detected : Int) : Nat :=
  if requested = 0 then
    let t := sizeOfLong detected
    if t = 0 then 4 else t
  else requested

/-- `struct crest_thread_pool` restricted to its immutable size: no code
path writes `thread_count` after creation. -/
structure ThreadPool where
  thread_count : Nat
deriving DecidableEq, Repr

/-- The pool returned by `crest_thread_pool_create` (thread_pool.c). -/
def crest_thread_pool_create (requested : Nat) (detected : Int) : ThreadPool :=
  { thread_count := resolveThreadCount requested detected }

/-- `crest_thread_pool_get_thread_count` (thread_pool.c). -/
def crest_thread_pool_get_thread_count (pool : ThreadPool) : Nat := pool.thread_count

/- =============== Worker pool shutdown (thread_pool.c), one worker =============== -/

/-- Position of the worker thread in its loop (`thread_worker`,
thread_pool.c): about to take the shutdown check, or about to pop. -/
inductive WorkerPC where
  | wCheck : WorkerPC
  | wPop : WorkerPC
deriving DecidableEq, Repr

/-- Position of the destroying thread in `crest_thread_pool_destroy`
(thread_pool.c): set the flag, push the sentinel, join, returned. -/
inductive MainPC where
  | mSet : MainPC
  | mPush : MainPC
  | mJoin : MainPC
  | mDone : MainPC
deriving DecidableEq, Repr

/-- Shared state of a one-worker pool during `crest_thread_pool_destroy`:
the FIFO task queue (`none` is the no-op sentinel `thread_sentinel`), the
shutdown flag, the multiset of tasks already run, and both threads'
positions. -/
structure PoolState where
  queue : List (Option Nat)
  shutdown : Bool
  executed : List Nat
  wpc : WorkerPC
  workerDone : Bool
  mpc : MainPC
deriving DecidableEq, Repr

/-- The two threads of the model. -/
inductive Agent where
  | worker : Agent
  | main : Agent
deriving DecidableEq, Repr

/-- One step of `thread_worker` (thread_pool.c): at the loop head, a set
shutdown flag makes the thread return without touching the queue;
otherwise it moves to `task_queue_pop`, which blocks on an empty queue
and otherwise removes the head and runs it (the sentinel runs as a
no-op). -/
def stepWorker (s : PoolState) : PoolState :=
  if s.workerDone then s
  else
    match s.wpc with
    | .wCheck =>
      if s.shutdown then { s with workerDone := true } else { s with wpc := .wPop }
    | .wPop =>
      match s.queue with
      | [] => s
      | t :: rest =>
        { s with queue := rest, executed := s.executed ++ t.toList, wpc := .wCheck }

/-- One step of `crest_thread_pool_destroy` (thread_pool.c): set the
shutdown flag, push one sentinel per worker, join (enabled only once the
worker returned), and return — the queue is then freed without running
what remains. -/
def stepMain (s : PoolState) : PoolState :=
  match s.mpc with
  | .mSet => { s with shutdown := true, mpc := .mPush }
  | .mPush => { s with queue := s.queue ++ [none], mpc := .mJoin }
  | .mJoin => if s.workerDone then { s with mpc := .mDone } else s
  | .mDone => s

/-- One interleaving step. -/
def stepPool (a : Agent) (s : PoolState) : PoolState :=
  match a with
  | .worker => stepWorker s
  | .main => stepMain s

/-- Run a schedule (an arbitrary interleaving of the two threads). -/
def runPool (sched : List Agent) (s : PoolState) : PoolState :=
  sched.foldl (fun st a => stepPool a st) s

/-- State at the start of `crest_thread_pool_destroy`: the given tasks
were submitted (queued FIFO) before shutdown began, nothing has run, the
worker is at its loop head. -/
def initPool (tasks : List Nat) : PoolState :=
  { queue := tasks.map some, shutdown := false, executed := [],
    wpc := .wCheck, workerDone := false, mpc := .mSet }

/- =============== Further definitions used by the theorems =============== -/

/-- Continuation contexts in which the printer-parser agreement is
stated: the end of the input, or one of the delimiters that follow a
value inside an array or object. -/
def stopTok (rest : List Char) : Prop :=
  rest = [] ∨ ∃ c cs, rest = c :: cs ∧ (c = ',' ∨ c = ']' ∨ c = '\x7d')

/-- A character that the C code may embed verbatim inside a quoted JSON
string without breaking the syntax: not a quote, not a backslash, not a
control character. -/
def rawChar (c : Char) : Bool :=
  c ≠ '"' && c ≠ '\\' && decide (32 ≤ c.toNat)

/-- All characters of the string are verbatim-safe. -/
def rawOk (s : String) : Bool := s.data.all rawChar

/-- The JSON tree of one `available_routes` entry of the 404 body. -/
def routeEntryVal {H : Type} (r : Route H) : JsonValue :=
  .obj ([("method".data, .str (methodName r.method).data),
         ("path".data, .str r.path.data)] ++
    (match r.description with
     | some d => [("description".data, .str d.data)]
     | none => []))

/-- The JSON tree whose minified serialization is exactly the body built
by `generate_detailed_404_error` (server.c), for verbatim-safe contents. -/
def v404 {H : Type} (routes : List (Route H)) (req : Request) (timestamp : String) :
    JsonValue :=
  .obj
    [("error".data, .str "Not Found".data),
     ("message".data, .str "Route not found".data),
     ("details".data, .obj
        [("requested_path".data, .str req.path.data),
         ("requested_method".data, .str (methodName req.method).data),
         ("timestamp".data, .str timestamp.data),
         ("server".data, .str ("Crest/" ++ CREST_VERSION).data)]),
     ("suggestions".data, .arr
        [.str "Check if the URL is correct and properly encoded".data,
         .str "Ensure you\x27re using the correct HTTP method (GET, POST, etc.)".data,
         .str "Verify that the endpoint exists in your application".data,
         .str "Check for trailing slashes or case sensitivity issues".data]),
     ("available_routes".data, .arr ((routes.take 10).map routeEntryVal)),
     ("warnings".data, .arr
        ([.str "This endpoint does not exist in the application".data,
          .str "Consider checking the API documentation or dashboard".data] ++
          if routes.length = 0 then
            [.str "No routes have been registered with the application".data]
          else []))]

/-- The tail a list element's serialization is followed by: nothing for
the last element, a comma and the rest otherwise. -/
def stringifySep : List JsonValue → List Char
  | [] => []
  | v :: vs => ',' :: stringifyList (v :: vs)

/-- The tail an object member's serialization is followed by. -/
def stringifyEntrySep : List (List Char × JsonValue) → List Char
  | [] => []
  | e :: es => ',' :: stringifyEntries (e :: es)

/-- The first output character of the serializer is never whitespace nor
a closing delimiter nor a comma. -/
def headNice (l : List Char) : Prop :=
  ∃ c cs, l = c :: cs ∧ isWs c = false ∧ c ≠ ']' ∧ c ≠ '\x7d' ∧ c ≠ ','

/-- Executed tasks together with the real tasks still queued. -/
def poolInv (s : PoolState) : List Nat := s.executed ++ s.queue.filterMap id

/-- An application route table built by a sequence of registrations (the
`crest_get`/`crest_post`/... entry points all call `register_route`). -/
def buildRoutes (ops : List (Nat × String × Nat × Option String)) : List (Route Nat) :=
  ops.foldl (fun t o => register_route t o.1 o.2.1 o.2.2.1 o.2.2.2) []

/-- A response that has already been sent once. -/
def sentRes : Response :=
  { status_code := 200, headers := [("Content-Type", "text/plain")],
    body := some "first", body_len := 5, sent := true }

/-- A table of 255 routes none of which is `(GET, /x)`. -/
def fullTable : List (Route Nat) :=
  (List.range 255).map fun i => mkRegisteredRoute 1 (toString i) 0 none

/-- The table after registering `GET /x` once on `fullTable`. -/
def fullT1 : List (Route Nat) := register_route fullTable 0 "/x" 1 none

/-- The table after registering `GET /x` a second time with a different
handler. -/
def fullT2 : List (Route Nat) := register_route fullT1 0 "/x" 2 none

/-- A registered route used to exercise the 404 path end to end. -/
def route404 : Route (Request → Response → Response) :=
  { method := 0, path := "/hello", handler := fun _ res => res,
    description := some "Say hello", is_pattern := false, pattern := none }

/-- A one-route application used to exercise the 404 path end to end. -/
def app404 : App := { routes := [route404], middleware := [] }

/-- A parsed request for an unregistered path. -/
def req404 : Request :=
  { method := 0, path := "/nope", query_params := [], headers := [], body := none,
    body_len := 0, path_params := [] }

/- ===================== Helper lemmas ===================== -/

theorem stepPool_poolInv (a : Agent) (s : PoolState) : poolInv (stepPool a s) = poolInv s := by
  cases a with
  | worker =>
    simp only [stepPool, stepWorker]
    split
    · rfl
    · split
      · split <;> rfl
      · split
        · rfl
        · rename_i t rest heq
          cases t <;> simp [poolInv, heq, List.filterMap_cons]
  | main =>
    simp only [stepPool, stepMain]
    split
    · rfl
    · simp [poolInv, List.filterMap_append]
    · split <;> rfl
    · rfl

theorem runPool_poolInv (sched : List Agent) (s : PoolState) :
    poolInv (runPool sched s) = poolInv s := by
  induction sched generalizing s with
  | nil => rfl
  | cons a rest ih =>
    show poolInv (runPool rest (stepPool a s)) = poolInv s
    rw [ih, stepPool_poolInv]

theorem mem_overwriteRoute {H : Type} (t : List (Route H)) (m : Nat) (p : String)
    (h : H) (d : Option String) (r : Route H) (hr : r ∈ overwriteRoute t m p h d) :
    r ∈ t ∨ r = mkRegisteredRoute m p h d := by
  induction t with
  | nil => simp [overwriteRoute] at hr
  | cons r0 rs ih =>
    simp only [overwriteRoute] at hr
    split at hr
    · rcases List.mem_cons.mp hr with h1 | h1
      · exact Or.inr h1
      · exact Or.inl (List.mem_cons_of_mem _ h1)
    · rcases List.mem_cons.mp hr with h1 | h1
      · exact Or.inl (h1 ▸ List.mem_cons_self _ _)
      · rcases ih h1 with h2 | h2
        · exact Or.inl (List.mem_cons_of_mem _ h2)
        · exact Or.inr h2

theorem mem_register_route {H : Type} (t : List (Route H)) (m : Nat) (p : String)
    (h : H) (d : Option String) (r : Route H) (hr : r ∈ register_route t m p h d) :
    r ∈ t ∨ r = mkRegisteredRoute m p h d := by
  simp only [register_route] at hr
  split at hr
  · exact Or.inl hr
  · split at hr
    · exact mem_overwriteRoute t m p h d r hr
    · rcases List.mem_append.mp hr with h1 | h1
      · exact Or.inl h1
      · exact Or.inr (List.mem_singleton.mp h1)

theorem buildRoutes_inv (P : Route Nat → Prop)
    (hP : ∀ m p h d, P (mkRegisteredRoute m p h d))
    (ops : List (Nat × String × Nat × Option String)) :
    ∀ r ∈ buildRoutes ops, P r := by
  suffices h : ∀ (t : List (Route Nat)), (∀ r ∈ t, P r) →
      ∀ r ∈ ops.foldl (fun t o => register_route t o.1 o.2.1 o.2.2.1 o.2.2.2) t, P r by
    exact h [] (by simp)
  induction ops with
  | nil => intro t ht; simpa using ht
  | cons o rest ih =>
    intro t ht r hr
    refine ih (register_route t o.1 o.2.1 o.2.2.1 o.2.2.2) ?_ r hr
    intro r0 hr0
    rcases mem_register_route _ _ _ _ _ _ hr0 with h1 | h1
    · exact ht r0 h1
    · exact h1 ▸ hP _ _ _ _

/- ===================== Claims ===================== -/

/-- C6: `crest_thread_pool_create` with a requested count of 0 and a core
query reporting no cores yields a pool of exactly 4 threads; an explicit
nonzero request yields exactly that many, and the count is the one stored
for the pool's lifetime (`crest_thread_pool_get_thread_count`). -/
theorem thread_pool_thread_count :
    crest_thread_pool_get_thread_count (crest_thread_pool_create 0 0) = 4 ∧
    ∀ (n : Nat) (d : Int), 0 < n →
      crest_thread_pool_get_thread_count (crest_thread_pool_create n d) = n := by
  constructor
  · rfl
  · intro n d hn
    simp [crest_thread_pool_get_thread_count, crest_thread_pool_create,
      resolveThreadCount, Nat.pos_iff_ne_zero.mp hn]

/-- Witness for C6 at the concrete request 8. -/
theorem thread_pool_thread_count_witness :
    crest_thread_pool_get_thread_count (crest_thread_pool_create 0 0) = 4 ∧
    crest_thread_pool_get_thread_count (crest_thread_pool_create 8 (-1)) = 8 :=
  ⟨thread_pool_thread_count.1, thread_pool_thread_count.2 8 (-1) (by decide)⟩

/-- C7 counterexample: `crest_response_send` on a response whose `sent`
flag is already true still replaces the body and the body length (the C
never reads `sent`), so a second body-setting call is not a no-op. -/
theorem response_send_ignores_sent_flag :
    sentRes.sent = true ∧
    (crest_response_send sentRes "second").body = some "second" ∧
    (crest_response_send sentRes "second").body_len = 6 ∧
    (crest_response_json sentRes "null").body = some "null" := by
  refine ⟨rfl, ?_, ?_, ?_⟩ <;> rfl

/-- C7 amended: every call of `crest_response_send` or
`crest_response_json` unconditionally overwrites the body and the body
length and sets `sent`; the flag is never consulted. -/
theorem response_send_always_writes (res : Response) (body : String) :
    ((crest_response_send res body).body = some body ∧
      (crest_response_send res body).body_len = body.length ∧
      (crest_response_send res body).sent = true) ∧
    ((crest_response_json res body).body = some body ∧
      (crest_response_json res body).body_len = body.length ∧
      (crest_response_json res body).sent = true) := by
  simp only [crest_response_json, crest_response_send, crest_response_header]
  refine ⟨⟨?_, ?_, ?_⟩, ?_, ?_, ?_⟩ <;> split_ifs <;> rfl

/-- C2 counterexample: with one task queued and a one-worker pool, the
interleaving "destroy sets the flag; the worker reaches its loop-head
check, sees the flag and returns; destroy pushes the sentinel and joins"
lets `crest_thread_pool_destroy` return with the task still in the queue
and never executed (the queue is then freed without running it). -/
theorem pool_destroy_drops_queued_task :
    (runPool [Agent.main, Agent.worker, Agent.main, Agent.main] (initPool [1])).mpc =
      MainPC.mDone ∧
    (runPool [Agent.main, Agent.worker, Agent.main, Agent.main] (initPool [1])).workerDone =
      true ∧
    (runPool [Agent.main, Agent.worker, Agent.main, Agent.main] (initPool [1])).executed =
      [] ∧
    (runPool [Agent.main, Agent.worker, Agent.main, Agent.main] (initPool [1])).queue =
      [some 1, none] := by
  refine ⟨rfl, rfl, rfl, rfl⟩

/-- C2 amended: under every interleaving the executed tasks followed by
the real tasks still queued are exactly the submitted tasks — so no task
runs twice and none is invented — and the destructor does return (the
flag-then-sentinel-then-join shutdown terminates); but a task still
queued when the worker observes the shutdown flag is dropped unexecuted
rather than drained. -/
theorem pool_shutdown_at_most_once :
    (∀ (sched : List Agent) (tasks : List Nat),
      (runPool sched (initPool tasks)).executed ++
        (runPool sched (initPool tasks)).queue.filterMap id = tasks) ∧
    ∀ tasks : List Nat,
      (runPool [Agent.main, Agent.worker, Agent.main, Agent.main] (initPool tasks)).mpc =
        MainPC.mDone := by
  constructor
  · intro sched tasks
    have h := runPool_poolInv sched (initPool tasks)
    simpa [poolInv, initPool, List.filterMap_map] using h
  · intro tasks
    rfl

/-- C5 counterexample: `router_register_route` (router.c) writes
`is_pattern = false` for every route, so registering the pattern path
`/users/:id` in a standalone router leaves a route whose path contains
`:` but whose `is_pattern` is false. -/
theorem router_register_is_pattern_false :
    router_register_route ([] : List (Route Nat)) 0 "/users/:id" 7 none =
      [{ method := 0, path := "/users/:id", handler := 7, description := none,
         is_pattern := false, pattern := none }] ∧
    strchrB "/users/:id" ':' = true := by
  refine ⟨rfl, by decide⟩

/-- C5 amended: in an application route table built by any sequence of
`register_route` calls (app.c), every route's `is_pattern` equals "the
path text contains `:` or `*`", derived from the path at registration
time; the standalone router table of router.c instead stores
`is_pattern = false` unconditionally. -/
theorem app_is_pattern_invariant (ops : List (Nat × String × Nat × Option String))
    (r : Route Nat) (hr : r ∈ buildRoutes ops) :
    r.is_pattern = (strchrB r.path ':' || strchrB r.path '*') := by
  refine buildRoutes_inv (fun r => r.is_pattern = (strchrB r.path ':' || strchrB r.path '*'))
    ?_ ops r hr
  intro m p h d
  rfl

/-- Witness for C5 at a one-registration table. -/
theorem app_is_pattern_invariant_witness :
    (mkRegisteredRoute 0 "/users/:id" 1 none).is_pattern =
      (strchrB "/users/:id" ':' || strchrB "/users/:id" '*') :=
  app_is_pattern_invariant [(0, "/users/:id", 1, none)] _ (by decide)

theorem mkRegisteredRoute_matches {H : Type} (m : Nat) (p : String) (h : H)
    (d : Option String) : routeMatches (mkRegisteredRoute m p h d) m p = true := by
  simp [routeMatches, mkRegisteredRoute]

theorem register_route_append {H : Type} (t : List (Route H)) (m : Nat) (p : String)
    (h : H) (d : Option String) (hcap : t.length < CREST_MAX_ROUTES)
    (hnone : ∀ r ∈ t, routeMatches r m p = false) :
    register_route t m p h d = t ++ [mkRegisteredRoute m p h d] := by
  unfold register_route
  rw [if_neg (Nat.not_le.mpr hcap), if_neg]
  simp only [List.any_eq_true, not_exists, not_and]
  intro r hr
  simp [hnone r hr]

theorem overwriteRoute_append {H : Type} (t : List (Route H)) (m : Nat) (p : String)
    (hA hB : H) (dA dB : Option String)
    (hnone : ∀ r ∈ t, routeMatches r m p = false) :
    overwriteRoute (t ++ [mkRegisteredRoute m p hA dA]) m p hB dB =
      t ++ [mkRegisteredRoute m p hB dB] := by
  induction t with
  | nil => simp [overwriteRoute, mkRegisteredRoute_matches]
  | cons r rs ih =>
    have hr := hnone r (List.mem_cons_self r rs)
    simp only [List.cons_append, overwriteRoute, hr]
    rw [if_neg (by simp [hr])]
    exact congrArg _ (ih fun x hx => hnone x (List.mem_cons_of_mem _ hx))

/-- C4 amended: with room for the first registration to leave the table
below capacity, registering the same `(method, path)` twice leaves the
table as the original routes plus a single route carrying the second
handler, description and pattern data; the route count is unchanged from
the first registration, and exactly one route matches `(method, path)`.
(At exactly `CREST_MAX_ROUTES` routes the claim fails: the capacity check
runs before the duplicate scan, see the counterexample.) -/
theorem register_route_duplicate_overwrites
    (t : List (Route Nat)) (m : Nat) (p : String) (hA hB : Nat) (dA dB : Option String)
    (hcap : t.length + 1 < CREST_MAX_ROUTES)
    (hnone : ∀ r ∈ t, routeMatches r m p = false) :
    register_route (register_route t m p hA dA) m p hB dB =
      t ++ [mkRegisteredRoute m p hB dB] ∧
    (register_route (register_route t m p hA dA) m p hB dB).length =
      (register_route t m p hA dA).length ∧
    (register_route (register_route t m p hA dA) m p hB dB).filter
      (fun r => routeMatches r m p) = [mkRegisteredRoute m p hB dB] := by
  have h1 : register_route t m p hA dA = t ++ [mkRegisteredRoute m p hA dA] :=
    register_route_append t m p hA dA (by omega) hnone
  have hpos : ((t ++ [mkRegisteredRoute m p hA dA]).any fun r => routeMatches r m p) = true := by
    simp only [List.any_append, List.any_cons, List.any_nil,
      mkRegisteredRoute_matches m p hA dA, Bool.true_or, Bool.or_true]
  have h2 : register_route (t ++ [mkRegisteredRoute m p hA dA]) m p hB dB =
      t ++ [mkRegisteredRoute m p hB dB] := by
    unfold register_route
    rw [if_neg (by simp only [List.length_append, List.length_cons, List.length_nil]; omega)]
    rw [if_pos hpos]
    exact overwriteRoute_append t m p hA hB dA dB hnone
  rw [h1]
  refine ⟨h2, ?_, ?_⟩
  · rw [h2]
    simp
  · rw [h2, List.filter_append]
    rw [List.filter_eq_nil_iff.mpr (by intro r hr; simp [hnone r hr])]
    simp [mkRegisteredRoute_matches]

/-- Witness for C4 from the empty table. -/
theorem register_route_duplicate_overwrites_witness :
    register_route (register_route ([] : List (Route Nat)) 0 "/x" 1 none) 0 "/x" 2 none =
      [] ++ [mkRegisteredRoute 0 "/x" 2 none] ∧
    (register_route (register_route ([] : List (Route Nat)) 0 "/x" 1 none) 0 "/x" 2 none).length =
      (register_route ([] : List (Route Nat)) 0 "/x" 1 none).length ∧
    (register_route (register_route ([] : List (Route Nat)) 0 "/x" 1 none) 0 "/x" 2 none).filter
      (fun r => routeMatches r 0 "/x") = [mkRegisteredRoute 0 "/x" 2 none] :=
  register_route_duplicate_overwrites [] 0 "/x" 1 2 none none (by decide) (by simp)

set_option maxRecDepth 40000 in
/-- C4 counterexample: at the capacity boundary the claim fails.  From a
table of 255 routes, the first registration of `GET /x` appends (count
256); the second registration of the same `(method, path)` with a
different handler hits the capacity check, which runs before the
duplicate scan in `register_route` (app.c), and is dropped — so the one
existing `(GET, /x)` route keeps the FIRST handler instead of being
overwritten with the second. -/
theorem register_route_capacity_blocks_overwrite :
    fullT1.length = 256 ∧ fullT2 = fullT1 ∧
    (fullT2.filter fun r => routeMatches r 0 "/x").map Route.handler = [1] := by
  refine ⟨rfl, rfl, rfl⟩

set_option maxRecDepth 8000 in
/-- C3: a `:` pattern element consumes exactly one nonempty path segment
and records it under the element's name: (1) a lone `:name` element
matches a lone slash-free nonempty segment and captures it; (2) an empty
captured segment (a path resuming with `/`) is a failure; (3) a match
succeeds only with the path fully consumed — leftover pattern with an
exhausted path fails — and concretely `/users/:id` matches `/users/42`
with `id = "42"` while `/users/42/extra` fails against the same route. -/
theorem route_pattern_segment_matching :
    (∀ (name seg : List Char), name ≠ [] → (∀ c ∈ name, c ≠ '/') →
      seg ≠ [] → (∀ c ∈ seg, c ≠ '/') →
      matchLoop (':' :: name) seg [] = (true, [(name.asString, seg.asString)])) ∧
    (∀ (name u : List Char) (params : List (String × String)),
      matchLoop (':' :: name) ('/' :: u) params = (false, params)) ∧
    (∀ (p : List Char) (params : List (String × String)), p ≠ [] →
      matchLoop p [] params = (false, params)) ∧
    match_route_pattern "/users/:id" "/users/42" [] = (true, [("id", "42")]) ∧
    (match_route_pattern "/users/:id" "/users/42/extra" []).1 = false := by
  refine ⟨?_, ?_, ?_, ?_, ?_⟩
  · intro name seg hne hslash sne sslash
    obtain ⟨d, ds, rfl⟩ : ∃ d ds, seg = d :: ds := by
      cases seg with
      | nil => exact absurd rfl sne
      | cons d ds => exact ⟨d, ds, rfl⟩
    have hd : d ≠ '/' := sslash d (List.mem_cons_self d ds)
    have htw : (name.takeWhile fun x => x ≠ '/') = name :=
      List.takeWhile_eq_self_iff.mpr (by intro a ha; simp [hslash a ha])
    have hdw : (name.dropWhile fun x => x ≠ '/') = [] :=
      List.dropWhile_eq_nil_iff.mpr (by intro a ha; simp [hslash a ha])
    have htw2 : (ds.takeWhile fun x => x ≠ '/') = ds :=
      List.takeWhile_eq_self_iff.mpr
        (by intro a ha; simp [sslash a (List.mem_cons_of_mem _ ha)])
    have hdw2 : (ds.dropWhile fun x => x ≠ '/') = [] :=
      List.dropWhile_eq_nil_iff.mpr
        (by intro a ha; simp [sslash a (List.mem_cons_of_mem _ ha)])
    rw [matchLoop.eq_def]
    dsimp only
    rw [if_pos rfl]
    rw [htw, hdw, htw2, hdw2]
    rw [if_neg (by simp [hne]), if_neg hd, if_pos (by decide)]
    rw [matchLoop.eq_def]
    simp
  · intro name u params
    simp [matchLoop]
  · intro p params hp
    cases p with
    | nil => exact absurd rfl hp
    | cons c cs => simp [matchLoop]
  · simp [match_route_pattern, matchLoop, CREST_MAX_PARAMS, List.asString]
  · simp [match_route_pattern, matchLoop, CREST_MAX_PARAMS]

/-- Witness for C3 at `name = id`, `seg = 42`. -/
theorem route_pattern_segment_matching_witness :
    matchLoop (':' :: ['i', 'd']) ['4', '2'] [] =
      (true, [(['i', 'd'].asString, ['4', '2'].asString)]) :=
  route_pattern_segment_matching.1 ['i', 'd'] ['4', '2'] (by decide) (by decide)
    (by decide) (by decide)

theorem methodOfToken_unknown (t : String) (ht : t ∉ knownMethodTokens) :
    methodOfToken t = 0 := by
  simp only [knownMethodTokens, List.mem_cons, List.mem_singleton, not_or] at ht
  obtain ⟨g1, g2, g3, g4, g5, g6, g7, -⟩ := ht
  simp [methodOfToken, g1, g2, g3, g4, g5, g6, g7]

/-- C10: when the request line scans into three tokens but the method
token is none of GET/POST/PUT/DELETE/PATCH/HEAD/OPTIONS, `parse_request`
still succeeds and the request's method is the `calloc` value 0, which
`crest_request_method` reports as `CREST_GET`. -/
theorem parse_request_unknown_method_defaults_to_get (raw : String)
    (m r1 p r2 v r3 : List Char)
    (h1 : scanToken 15 raw.data = some (m, r1))
    (h2 : scanToken 511 r1 = some (p, r2))
    (h3 : scanToken 15 r2 = some (v, r3))
    (hm : m.asString ∉ knownMethodTokens) :
    (parse_request raw).map crest_request_method = some CREST_GET := by
  unfold parse_request
  rw [h1]
  dsimp only
  rw [h2]
  dsimp only
  rw [h3]
  simp [crest_request_method, CREST_GET, methodOfToken_unknown m.asString hm]

/-- Witness for C10 on the request line `BREW /coffee HTTP/1.1`. -/
theorem parse_request_unknown_method_witness :
    (parse_request "BREW /coffee HTTP/1.1").map crest_request_method = some CREST_GET :=
  parse_request_unknown_method_defaults_to_get "BREW /coffee HTTP/1.1"
    ['B', 'R', 'E', 'W'] (' ' :: "/coffee HTTP/1.1".data)
    "/coffee".data (' ' :: "HTTP/1.1".data)
    "HTTP/1.1".data [] rfl rfl rfl (by decide)

/- ============ JSON round trip: string and digit lemmas ============ -/

theorem parseStringLoop_print (s : List Char) (rest : List Char)
    (hc : cleanStr s = true) :
    parseStringLoop (s.flatMap escCharOut ++ ('"' :: rest)) = .ok (s, rest) := by
  induction s with
  | nil =>
    rw [List.flatMap_nil, List.nil_append, parseStringLoop.eq_def]
    simp
  | cons c cs ih =>
    have hcc : cleanChar c = true := by
      simp only [cleanStr, List.all_cons, Bool.and_eq_true] at hc
      exact hc.1
    have hcs : cleanStr cs = true := by
      simp only [cleanStr, List.all_cons, Bool.and_eq_true] at hc
      exact hc.2
    have ihs := ih hcs
    have ihs2 : parseStringLoop ((List.map escCharOut cs).flatten ++ '"' :: rest) =
        .ok (cs, rest) := ihs
    by_cases h1 : c = '"'
    · subst h1
      rw [show ('"' :: cs).flatMap escCharOut ++ '"' :: rest =
          '\\' :: '"' :: (cs.flatMap escCharOut ++ '"' :: rest) from by simp [escCharOut]]
      rw [parseStringLoop.eq_def]
      simp [escChar, ihs, ihs2, Except.map]
    by_cases h2 : c = '\\'
    · subst h2
      rw [show ('\\' :: cs).flatMap escCharOut ++ '"' :: rest =
          '\\' :: '\\' :: (cs.flatMap escCharOut ++ '"' :: rest) from by simp [escCharOut]]
      rw [parseStringLoop.eq_def]
      simp [escChar, ihs, ihs2, Except.map]
    by_cases h3 : c = '\x08'
    · subst h3
      rw [show ('\x08' :: cs).flatMap escCharOut ++ '"' :: rest =
          '\\' :: 'b' :: (cs.flatMap escCharOut ++ '"' :: rest) from by simp [escCharOut]]
      rw [parseStringLoop.eq_def]
      simp [escChar, ihs, ihs2, Except.map]
    by_cases h4 : c = '\x0c'
    · subst h4
      rw [show ('\x0c' :: cs).flatMap escCharOut ++ '"' :: rest =
          '\\' :: 'f' :: (cs.flatMap escCharOut ++ '"' :: rest) from by simp [escCharOut]]
      rw [parseStringLoop.eq_def]
      simp [escChar, ihs, ihs2, Except.map]
    by_cases h5 : c = '\n'
    · subst h5
      rw [show ('\n' :: cs).flatMap escCharOut ++ '"' :: rest =
          '\\' :: 'n' :: (cs.flatMap escCharOut ++ '"' :: rest) from by simp [escCharOut]]
      rw [parseStringLoop.eq_def]
      simp [escChar, ihs, ihs2, Except.map]
    by_cases h6 : c = '\r'
    · subst h6
      rw [show ('\r' :: cs).flatMap escCharOut ++ '"' :: rest =
          '\\' :: 'r' :: (cs.flatMap escCharOut ++ '"' :: rest) from by simp [escCharOut]]
      rw [parseStringLoop.eq_def]
      simp [escChar, ihs, ihs2, Except.map]
    by_cases h7 : c = '\t'
    · subst h7
      rw [show ('\t' :: cs).flatMap escCharOut ++ '"' :: rest =
          '\\' :: 't' :: (cs.flatMap escCharOut ++ '"' :: rest) from by simp [escCharOut]]
      rw [parseStringLoop.eq_def]
      simp [escChar, ihs, ihs2, Except.map]
    have h8 : ¬ c.toNat < 32 := by
      simp only [cleanChar, Bool.or_eq_true, decide_eq_true_eq] at hcc
      rcases hcc with (((((h | h) | h) | h) | h) | h) <;>
        first | omega | exact absurd h (by assumption)
    rw [show (c :: cs).flatMap escCharOut ++ '"' :: rest =
        c :: (cs.flatMap escCharOut ++ '"' :: rest) from by
      simp [escCharOut, h1, h2, h3, h4, h5, h6, h7, h8]]
    rw [parseStringLoop.eq_def]
    simp [h1, h2, ihs, ihs2, Except.map]

theorem parseString_print (s : List Char) (rest : List Char)
    (hc : cleanStr s = true) :
    parseString (escapeString s ++ rest) = .ok (s, rest) := by
  have : escapeString s ++ rest = '"' :: (s.flatMap escCharOut ++ ('"' :: rest)) := by
    simp [escapeString]
  rw [this]
  show parseStringLoop _ = _
  exact parseStringLoop_print s rest hc

theorem digitChar_isDigit (d : Nat) : (digitChar d).isDigit = true := by
  unfold digitChar
  split_ifs <;> decide

theorem digitVal_digitChar (d : Nat) (h : d < 10) : digitVal (digitChar d) = d := by
  interval_cases d <;> decide

theorem natToDigits_ne_nil (n : Nat) : natToDigits n ≠ [] := by
  rw [natToDigits]
  split
  · simp
  · simp

theorem natToDigits_all_digits (n : Nat) : ∀ c ∈ natToDigits n, c.isDigit = true := by
  induction n using Nat.strong_induction_on with
  | _ n ih =>
    rw [natToDigits]
    split
    · intro c hcmem
      simp only [List.mem_singleton] at hcmem
      exact hcmem ▸ digitChar_isDigit n
    · intro c hcmem
      rcases List.mem_append.mp hcmem with h | h
      · refine ih (n / 10) (Nat.div_lt_self ?_ ?_) c h
        · omega
        · decide
      · simp only [List.mem_singleton] at h
        exact h ▸ digitChar_isDigit (n % 10)

theorem digitChar_ne_zero (n : Nat) (h0 : n ≠ 0) (h10 : n < 10) : digitChar n ≠ '0' := by
  interval_cases n <;> simp_all <;> decide

theorem natToDigits_head_ne_zero (n : Nat) (hn : n ≠ 0) (c : Char) (cs : List Char)
    (h : natToDigits n = c :: cs) : c ≠ '0' := by
  induction n using Nat.strong_induction_on generalizing c cs with
  | _ n ih =>
    rw [natToDigits] at h
    split at h
    · simp only [List.cons.injEq] at h
      exact h.1 ▸ digitChar_ne_zero n hn (by assumption)
    · rename_i hge
      cases hrec : natToDigits (n / 10) with
      | nil => exact absurd hrec (natToDigits_ne_nil (n / 10))
      | cons c0 cs0 =>
        rw [hrec, List.cons_append] at h
        simp only [List.cons.injEq] at h
        exact h.1 ▸ ih (n / 10) (Nat.div_lt_self (by omega) (by omega))
          (by omega) c0 cs0 hrec

theorem digitsVal_append_one (ds : List Char) (c : Char) :
    digitsVal (ds ++ [c]) = 10 * digitsVal ds + digitVal c := by
  simp [digitsVal, List.foldl_append]

theorem digitsVal_natToDigits (n : Nat) : digitsVal (natToDigits n) = n := by
  induction n using Nat.strong_induction_on with
  | _ n ih =>
    rw [natToDigits]
    split
    · rename_i h
      simp only [digitsVal, List.foldl_cons, List.foldl_nil]
      rw [Nat.mul_zero, Nat.zero_add]
      exact digitVal_digitChar n h
    · rename_i h
      rw [digitsVal_append_one, ih (n / 10) (Nat.div_lt_self (by omega) (by omega)),
        digitVal_digitChar (n % 10) (Nat.mod_lt n (by omega))]
      omega

theorem takeWhile_append_all (p : Char → Bool) (l rest : List Char)
    (hl : ∀ c ∈ l, p c = true) (hrest : ∀ c, rest.head? = some c → p c = false) :
    (l ++ rest).takeWhile p = l ∧ (l ++ rest).dropWhile p = rest := by
  induction l with
  | nil =>
    cases rest with
    | nil => simp
    | cons r rs =>
      have := hrest r rfl
      simp [List.takeWhile_cons, List.dropWhile_cons, this]
  | cons c cs ih =>
    have hc := hl c (List.mem_cons_self c cs)
    have ih2 := ih fun x hx => hl x (List.mem_cons_of_mem _ hx)
    simp [List.takeWhile_cons, List.dropWhile_cons, hc, ih2.1, ih2.2]

/- ============ JSON round trip: number lemmas ============ -/

theorem stopTok_facts (rest : List Char) (h : stopTok rest) :
    (∀ c, rest.head? = some c → c.isDigit = false) ∧
    (∀ c, rest.head? = some c → c ≠ '.') ∧
    (∀ c, rest.head? = some c → ¬(c = 'e' ∨ c = 'E')) := by
  rcases h with rfl | ⟨c, cs, rfl, hc⟩
  · exact ⟨fun c h => by simp at h, fun c h => by simp at h, fun c h => by simp at h⟩
  · refine ⟨fun d hd => ?_, fun d hd => ?_, fun d hd => ?_⟩ <;>
      (simp only [List.head?_cons, Option.some.injEq] at hd; subst hd) <;>
      rcases hc with rfl | rfl | rfl <;> decide

theorem parseFrac_none (rest : List Char) (hdot : ∀ c, rest.head? = some c → c ≠ '.') :
    parseFrac rest = .ok ([], rest) := by
  cases rest with
  | nil => rfl
  | cons c cs =>
    rw [parseFrac.eq_def]
    split
    · rename_i heq
      rw [List.cons.injEq] at heq
      exact absurd heq.1 (hdot c rfl)
    · rfl

theorem parseExp_none (rest : List Char)
    (hexp : ∀ c, rest.head? = some c → ¬(c = 'e' ∨ c = 'E')) :
    parseExp rest = .ok (0, rest) := by
  cases rest with
  | nil => rfl
  | cons c cs =>
    rw [parseExp.eq_def]
    dsimp only
    rw [if_neg (hexp c rfl)]

theorem isDigit_ne_minus (c : Char) (h : c.isDigit = true) : c ≠ '-' := by
  intro heq
  subst heq
  exact absurd h (by decide)

theorem isDigit_ne_zero_char (c : Char) (h : c.isDigit = true) (h2 : c ≠ '0') :
    True := trivial

theorem natToDigits_zero : natToDigits 0 = ['0'] := by
  rw [natToDigits]
  simp [digitChar]

theorem parseNumber_digits (n : Nat) (rest : List Char)
    (hdigit : ∀ c, rest.head? = some c → c.isDigit = false)
    (hdot : ∀ c, rest.head? = some c → c ≠ '.')
    (hexp : ∀ c, rest.head? = some c → ¬(c = 'e' ∨ c = 'E')) :
    parseNumber (natToDigits n ++ rest) = .ok (.num (n : ℚ), rest) := by
  obtain ⟨c, cs, hnd⟩ : ∃ c cs, natToDigits n = c :: cs := by
    cases h : natToDigits n with
    | nil => exact absurd h (natToDigits_ne_nil n)
    | cons c cs => exact ⟨c, cs, rfl⟩
  have hcdig : c.isDigit = true := natToDigits_all_digits n c (hnd ▸ List.mem_cons_self c cs)
  have hfrac := parseFrac_none rest hdot
  have hexp2 := parseExp_none rest hexp
  rw [hnd, List.cons_append]
  unfold parseNumber
  dsimp only [List.head?_cons]
  rw [if_neg (show ¬(some c = some '-') from by simp [isDigit_ne_minus c hcdig])]
  dsimp only
  rw [if_pos hcdig]
  by_cases hn0 : n = 0
  · subst hn0
    rw [natToDigits_zero] at hnd
    obtain ⟨rfl, rfl⟩ := (List.cons.injEq '0' [] c cs).mp hnd
    simp only [List.nil_append]
    norm_num
    rw [hfrac]
    dsimp only
    rw [hexp2]
    norm_num [digitsVal, digitVal]
    decide
  · have hc0 : c ≠ '0' := natToDigits_head_ne_zero n hn0 c cs hnd
    rw [if_neg hc0, if_neg hc0]
    have htd := takeWhile_append_all Char.isDigit (natToDigits n) rest
      (natToDigits_all_digits n) hdigit
    rw [← List.cons_append, ← hnd, htd.1, htd.2]
    rw [hfrac]
    dsimp only
    rw [hexp2]
    dsimp only
    rw [digitsVal_natToDigits]
    rw [if_neg (show ¬(some c = some '-') from by simp [isDigit_ne_minus c hcdig])]
    norm_num [digitsVal, digitVal]

theorem intToDecimal_print (m : Int) (rest : List Char) (hstop : stopTok rest) :
    parseNumber (intToDecimal m ++ rest) = .ok (.num (m : ℚ), rest) := by
  obtain ⟨hdigit, hdot, hexp⟩ := stopTok_facts rest hstop
  by_cases hm : m < 0
  · rw [intToDecimal, if_pos hm, List.cons_append]
    obtain ⟨c, cs, hnd⟩ : ∃ c cs, natToDigits m.natAbs = c :: cs := by
      cases h : natToDigits m.natAbs with
      | nil => exact absurd h (natToDigits_ne_nil _)
      | cons c cs => exact ⟨c, cs, rfl⟩
    have hcdig : c.isDigit = true :=
      natToDigits_all_digits _ c (hnd ▸ List.mem_cons_self c cs)
    unfold parseNumber
    dsimp only [List.head?_cons, List.tail_cons]
    rw [if_pos rfl]
    rw [hnd, List.cons_append]
    dsimp only
    rw [if_pos hcdig]
    have hn0 : m.natAbs ≠ 0 := by
      intro h
      exact absurd (Int.natAbs_eq_zero.mp h) (by omega)
    have hc0 : c ≠ '0' := natToDigits_head_ne_zero _ hn0 c cs hnd
    rw [if_neg hc0, if_neg hc0]
    have htd := takeWhile_append_all Char.isDigit (natToDigits m.natAbs) rest
      (natToDigits_all_digits _) hdigit
    rw [← List.cons_append, ← hnd, htd.1, htd.2]
    rw [parseFrac_none rest hdot]
    dsimp only
    rw [parseExp_none rest hexp]
    dsimp only
    rw [digitsVal_natToDigits]
    have hcast : ((m.natAbs : Nat) : ℚ) = -(m : ℚ) := by
      rw [Int.cast_natAbs, abs_of_nonpos (le_of_lt hm)]
      push_cast
      ring
    rw [if_pos rfl]
    norm_num [digitsVal, digitVal, hcast]
  · rw [intToDecimal, if_neg hm]
    rw [parseNumber_digits m.natAbs rest hdigit hdot hexp]
    have hcast : ((m.natAbs : Nat) : ℚ) = (m : ℚ) := by
      rw [Int.cast_natAbs, abs_of_nonneg (not_lt.mp hm)]
    rw [hcast]

/- ============ JSON round trip: head and size lemmas ============ -/

theorem isDigit_ne (c d : Char) (h : c.isDigit = true) (hd : d.isDigit = false) : c ≠ d := by
  intro heq
  subst heq
  rw [h] at hd
  exact absurd hd (by decide)

theorem isDigit_not_ws (c : Char) (h : c.isDigit = true) : isWs c = false := by
  by_contra hw
  rw [Bool.not_eq_false, isWs, Bool.or_eq_true, Bool.or_eq_true, Bool.or_eq_true] at hw
  simp only [decide_eq_true_eq] at hw
  rcases hw with ((rfl | rfl) | rfl) | rfl <;> exact absurd h (by decide)

theorem headNice_of_digit (c : Char) (cs : List Char) (h : c.isDigit = true) :
    headNice (c :: cs) :=
  ⟨c, cs, rfl, isDigit_not_ws c h, isDigit_ne c ']' h (by decide),
    isDigit_ne c '\x7d' h (by decide), isDigit_ne c ',' h (by decide)⟩

theorem intToDecimal_headNice (m : Int) : headNice (intToDecimal m) := by
  rw [intToDecimal]
  split
  · exact ⟨'-', _, rfl, by decide, by decide, by decide, by decide⟩
  · obtain ⟨c, cs, hnd⟩ : ∃ c cs, natToDigits m.natAbs = c :: cs := by
      cases h : natToDigits m.natAbs with
      | nil => exact absurd h (natToDigits_ne_nil _)
      | cons c cs => exact ⟨c, cs, rfl⟩
    rw [hnd]
    exact headNice_of_digit c cs
      (natToDigits_all_digits _ c (hnd ▸ List.mem_cons_self c cs))

theorem headNice_cons (c : Char) (cs : List Char)
    (h : (isWs c = false ∧ c ≠ ']') ∧ c ≠ '\x7d' ∧ c ≠ ',') : headNice (c :: cs) :=
  ⟨c, cs, rfl, h.1.1, h.1.2, h.2.1, h.2.2⟩

theorem stringify_headNice (v : JsonValue) : headNice (stringifyVal v) := by
  cases v with
  | null => exact headNice_cons 'n' _ (by decide)
  | bool b =>
    cases b
    · exact headNice_cons 'f' _ (by decide)
    · exact headNice_cons 't' _ (by decide)
  | num q =>
    rw [stringifyVal]
    split
    · exact intToDecimal_headNice q.num
    · exact headNice_cons '?' _ (by decide)
  | str s => exact headNice_cons '"' _ (by decide)
  | arr vs => exact headNice_cons '[' _ (by decide)
  | obj es => exact headNice_cons '\x7b' _ (by decide)

theorem skipWs_cons_not_ws (c : Char) (l : List Char) (h : isWs c = false) :
    skipWs (c :: l) = c :: l := by
  simp [skipWs, List.dropWhile_cons, h]

theorem skipWs_stringify (v : JsonValue) (rest : List Char) :
    skipWs (stringifyVal v ++ rest) = stringifyVal v ++ rest := by
  obtain ⟨c, cs, heq, hws, -, -, -⟩ := stringify_headNice v
  rw [heq, List.cons_append, skipWs_cons_not_ws c _ hws]

theorem jsize_pos (v : JsonValue) : 1 ≤ jsize v := by
  cases v <;> simp [jsize] <;> omega

theorem jsize_mem_list (v : JsonValue) (vs : List JsonValue) (h : v ∈ vs) :
    jsize v + 1 ≤ jsizeList vs := by
  induction vs with
  | nil => simp at h
  | cons w ws ih =>
    rcases List.mem_cons.mp h with rfl | h2
    · simp only [jsizeList]
      omega
    · have := ih h2
      simp only [jsizeList]
      omega

theorem jsize_mem_entries (k : List Char) (v : JsonValue)
    (es : List (List Char × JsonValue)) (h : (k, v) ∈ es) :
    jsize v + 1 ≤ jsizeEntries es := by
  induction es with
  | nil => simp at h
  | cons e es ih =>
    rcases List.mem_cons.mp h with heq | h2
    · obtain ⟨e1, e2⟩ := e
      rw [Prod.mk.injEq] at heq
      simp only [jsizeEntries]
      rw [← heq.2]
      omega
    · have := ih h2
      obtain ⟨e1, e2⟩ := e
      simp only [jsizeEntries]
      omega

mutual

theorem jsize_le_len : (v : JsonValue) → jsize v ≤ (stringifyVal v).length
  | .null => by simp [jsize, stringifyVal]
  | .bool b => by cases b <;> simp [jsize, stringifyVal]
  | .num q => by
    rw [show jsize (JsonValue.num q) = 1 from rfl, stringifyVal]
    split
    · obtain ⟨c, cs, heq, -, -, -, -⟩ := intToDecimal_headNice q.num
      rw [heq]
      simp
    · simp
  | .str s => by simp [jsize, stringifyVal, escapeString]
  | .arr vs => by
    have h := jsizeList_le_len vs
    simp only [jsize, stringifyVal, List.length_cons, List.length_append]
    omega
  | .obj es => by
    have h := jsizeEntries_le_len es
    simp only [jsize, stringifyVal, List.length_cons, List.length_append]
    omega

theorem jsizeList_le_len : (vs : List JsonValue) →
    jsizeList vs ≤ (stringifyList vs).length + 1
  | [] => by simp [jsizeList, stringifyList]
  | [v] => by
    have h := jsize_le_len v
    simp only [jsizeList, stringifyList]
    omega
  | v :: w :: vs => by
    have h1 := jsize_le_len v
    have h2 := jsizeList_le_len (w :: vs)
    simp only [jsizeList] at h2
    simp only [jsizeList, stringifyList, List.length_append, List.length_cons]
    omega

theorem jsizeEntries_le_len : (es : List (List Char × JsonValue)) →
    jsizeEntries es ≤ (stringifyEntries es).length + 1
  | [] => by simp [jsizeEntries, stringifyEntries]
  | [(k, v)] => by
    have h := jsize_le_len v
    simp only [jsizeEntries, stringifyEntries]
    simp only [List.length_append, List.length_cons]
    omega
  | (k, v) :: e :: es => by
    have h1 := jsize_le_len v
    have h2 := jsizeEntries_le_len (e :: es)
    simp only [jsizeEntries] at h2
    simp only [jsizeEntries, stringifyEntries, List.length_append, List.length_cons]
    omega

end

theorem jsonSet_append (es : List (List Char × JsonValue)) (k : List Char) (v : JsonValue)
    (hk : k ∉ es.map Prod.fst) : jsonSet es k v = es ++ [(k, v)] := by
  induction es with
  | nil => rfl
  | cons e es ih =>
    obtain ⟨k0, v0⟩ := e
    have hne : k0 ≠ k := by
      intro h
      exact hk (h ▸ List.mem_cons_self k0 _)
    rw [jsonSet, if_neg hne, ih fun h => hk (List.mem_cons_of_mem _ h)]
    rfl

/- ============ JSON round trip: the printer-parser agreement ============ -/

theorem stringifyList_cons (v : JsonValue) (vs : List JsonValue) :
    stringifyList (v :: vs) = stringifyVal v ++ stringifySep vs := by
  cases vs <;> simp [stringifyList, stringifySep]

theorem stringifyEntries_cons (k : List Char) (v : JsonValue)
    (es : List (List Char × JsonValue)) :
    stringifyEntries ((k, v) :: es) =
      escapeString k ++ ':' :: (stringifyVal v ++ stringifyEntrySep es) := by
  cases es <;> simp [stringifyEntries, stringifyEntrySep]

theorem stopTok_sep_list (vs : List JsonValue) (rest : List Char) :
    stopTok (stringifySep vs ++ (']' :: rest)) := by
  cases vs with
  | nil => exact Or.inr ⟨']', rest, rfl, Or.inr (Or.inl rfl)⟩
  | cons w ws =>
    exact Or.inr ⟨',', stringifyList (w :: ws) ++ (']' :: rest), rfl, Or.inl rfl⟩

theorem stopTok_sep_entries (es : List (List Char × JsonValue)) (rest : List Char) :
    stopTok (stringifyEntrySep es ++ ('\x7d' :: rest)) := by
  cases es with
  | nil => exact Or.inr ⟨'\x7d', rest, rfl, Or.inr (Or.inr rfl)⟩
  | cons e es =>
    exact Or.inr ⟨',', stringifyEntries (e :: es) ++ ('\x7d' :: rest), rfl, Or.inl rfl⟩

theorem parseLiteral_self (lit : List Char) (v : JsonValue) (rest : List Char) :
    parseLiteral lit v (lit ++ rest) = .ok (v, rest) := by
  unfold parseLiteral
  rw [if_neg (by simp)]
  rw [if_pos (List.isPrefixOf_iff_prefix.mpr (List.prefix_append lit rest))]
  rw [List.drop_left]

theorem parseArrayLoop_print : ∀ (vs : List JsonValue),
    (∀ w ∈ vs, ∀ (fuel : Nat) (rest : List Char), jsize w ≤ fuel →
      cleanVal w = true → intNums w = true → uniqKeys w = true → stopTok rest →
      parseValue fuel (stringifyVal w ++ rest) = .ok (w, rest)) →
    ∀ (acc : List JsonValue) (fuel : Nat) (rest : List Char),
    vs ≠ [] → jsizeList vs ≤ fuel →
    cleanList vs = true → intNumsList vs = true → uniqKeysList vs = true → stopTok rest →
    parseArrayLoop fuel acc (stringifyList vs ++ (']' :: rest)) =
      .ok (.arr (acc ++ vs), rest) := by
  intro vs
  induction vs with
  | nil => intro _ acc fuel rest hne; exact absurd rfl hne
  | cons v vs ihl =>
    intro IH acc fuel rest _ hsz hc hi hu hrest
    simp only [cleanList, Bool.and_eq_true] at hc
    simp only [intNumsList, Bool.and_eq_true] at hi
    simp only [uniqKeysList, Bool.and_eq_true] at hu
    simp only [jsizeList] at hsz
    have hjv := jsize_pos v
    obtain ⟨g, rfl⟩ : ∃ g, fuel = g + 1 := by
      cases fuel with
      | zero => omega
      | succ g => exact ⟨g, rfl⟩
    rw [stringifyList_cons v vs, List.append_assoc]
    obtain ⟨c, cs, hveq, hws, -, -, -⟩ := stringify_headNice v
    rw [hveq, List.cons_append]
    rw [parseArrayLoop.eq_def]
    dsimp only
    rw [← List.cons_append, ← hveq]
    rw [IH v (List.mem_cons_self v vs) g _ (by omega) hc.1 hi.1 hu.1
      (stopTok_sep_list vs rest)]
    dsimp only
    cases vs with
    | nil =>
      rw [show stringifySep ([] : List JsonValue) ++ (']' :: rest) = ']' :: rest from rfl]
      rw [skipWs_cons_not_ws ']' rest (by decide)]
      dsimp only
      rw [if_pos rfl]
    | cons w ws =>
      rw [show stringifySep (w :: ws) ++ (']' :: rest) =
        ',' :: (stringifyList (w :: ws) ++ (']' :: rest)) from rfl]
      rw [skipWs_cons_not_ws ',' _ (by decide)]
      dsimp only
      rw [if_neg (by decide), if_pos rfl]
      have hskip : skipWs (stringifyList (w :: ws) ++ (']' :: rest)) =
          stringifyList (w :: ws) ++ (']' :: rest) := by
        rw [stringifyList_cons w ws, List.append_assoc, skipWs_stringify w _,
          ← List.append_assoc, ← stringifyList_cons w ws]
      rw [hskip]
      rw [ihl (fun x hx => IH x (List.mem_cons_of_mem _ hx)) (acc ++ [v]) g rest
        (by simp) (by omega) hc.2 hi.2 hu.2 hrest]
      simp

theorem parseObjectLoop_print : ∀ (es : List (List Char × JsonValue)),
    (∀ e ∈ es, ∀ (fuel : Nat) (rest : List Char), jsize (Prod.snd e) ≤ fuel →
      cleanVal (Prod.snd e) = true → intNums (Prod.snd e) = true →
      uniqKeys (Prod.snd e) = true → stopTok rest →
      parseValue fuel (stringifyVal (Prod.snd e) ++ rest) = .ok (Prod.snd e, rest)) →
    ∀ (acc : List (List Char × JsonValue)) (fuel : Nat) (rest : List Char),
    es ≠ [] → jsizeEntries es ≤ fuel →
    cleanEntries es = true → intNumsEntries es = true → uniqKeysEntries es = true →
    (acc.map Prod.fst ++ es.map Prod.fst).Nodup → stopTok rest →
    parseObjectLoop fuel acc (stringifyEntries es ++ ('\x7d' :: rest)) =
      .ok (.obj (acc ++ es), rest) := by
  intro es
  induction es with
  | nil => intro _ acc fuel rest hne; exact absurd rfl hne
  | cons e es ihl =>
    obtain ⟨k, v⟩ := e
    intro IH acc fuel rest _ hsz hc hi hu hnd hrest
    simp only [cleanEntries, Bool.and_eq_true] at hc
    simp only [intNumsEntries, Bool.and_eq_true] at hi
    simp only [uniqKeysEntries, Bool.and_eq_true] at hu
    simp only [jsizeEntries] at hsz
    have hjv := jsize_pos v
    obtain ⟨g, rfl⟩ : ∃ g, fuel = g + 1 := by
      cases fuel with
      | zero => omega
      | succ g => exact ⟨g, rfl⟩
    have hkacc : k ∉ acc.map Prod.fst := by
      have h2 : (k :: (acc.map Prod.fst ++ es.map Prod.fst)).Nodup := by
        rw [← List.nodup_middle]
        simpa using hnd
      intro hmem
      exact (List.nodup_cons.mp h2).1 (List.mem_append.mpr (Or.inl hmem))
    rw [stringifyEntries_cons k v es]
    have hinput : (escapeString k ++ ':' :: (stringifyVal v ++ stringifyEntrySep es)) ++
        ('\x7d' :: rest) =
        '"' :: (k.flatMap escCharOut ++
          ('"' :: (':' :: (stringifyVal v ++ (stringifyEntrySep es ++ ('\x7d' :: rest)))))) := by
      simp [escapeString]
    rw [hinput]
    rw [parseObjectLoop.eq_def]
    dsimp only
    rw [skipWs_cons_not_ws '"' _ (by decide)]
    dsimp only [List.head?_cons, List.tail_cons]
    rw [if_pos rfl]
    rw [show parseString ('"' :: (k.flatMap escCharOut ++
        ('"' :: (':' :: (stringifyVal v ++ (stringifyEntrySep es ++ ('\x7d' :: rest))))))) =
        parseStringLoop (k.flatMap escCharOut ++
          ('"' :: (':' :: (stringifyVal v ++ (stringifyEntrySep es ++ ('\x7d' :: rest))))))
      from rfl]
    rw [parseStringLoop_print k _ hc.1.1]
    dsimp only
    rw [skipWs_cons_not_ws ':' _ (by decide)]
    dsimp only [List.head?_cons, List.tail_cons]
    rw [if_pos rfl]
    rw [skipWs_stringify v _]
    rw [IH (k, v) (List.mem_cons_self _ _) g _ (by show jsize v ≤ g; omega) hc.1.2 hi.1 hu.1
      (stopTok_sep_entries es rest)]
    dsimp only
    rw [jsonSet_append acc k v hkacc]
    cases es with
    | nil =>
      rw [show stringifyEntrySep ([] : List (List Char × JsonValue)) ++ ('\x7d' :: rest) =
        '\x7d' :: rest from rfl]
      rw [skipWs_cons_not_ws '\x7d' rest (by decide)]
      dsimp only
      rw [if_pos rfl]
    | cons e2 es2 =>
      rw [show stringifyEntrySep (e2 :: es2) ++ ('\x7d' :: rest) =
        ',' :: (stringifyEntries (e2 :: es2) ++ ('\x7d' :: rest)) from rfl]
      rw [skipWs_cons_not_ws ',' _ (by decide)]
      dsimp only
      rw [if_neg (by decide), if_pos rfl]
      have hnd2 : ((acc ++ [(k, v)]).map Prod.fst ++ (e2 :: es2).map Prod.fst).Nodup := by
        have : (acc ++ [(k, v)]).map Prod.fst ++ (e2 :: es2).map Prod.fst =
            acc.map Prod.fst ++ ((k, v) :: e2 :: es2).map Prod.fst := by
          simp
        rw [this]
        exact hnd
      rw [ihl (fun x hx => IH x (List.mem_cons_of_mem _ hx)) (acc ++ [(k, v)]) g rest
        (by simp) (by omega) hc.2 hi.2 hu.2 hnd2 hrest]
      simp

theorem intToDecimal_head (m : Int) :
    ∃ c cs, intToDecimal m = c :: cs ∧ (c = '-' ∨ c.isDigit = true) := by
  rw [intToDecimal]
  split
  · exact ⟨'-', _, rfl, Or.inl rfl⟩
  · obtain ⟨c, cs, hnd⟩ : ∃ c cs, natToDigits m.natAbs = c :: cs := by
      cases h : natToDigits m.natAbs with
      | nil => exact absurd h (natToDigits_ne_nil _)
      | cons c cs => exact ⟨c, cs, rfl⟩
    exact ⟨c, cs, hnd, Or.inr (natToDigits_all_digits _ c (hnd ▸ List.mem_cons_self c cs))⟩

theorem parseValue_print : ∀ (N : Nat) (v : JsonValue), jsize v ≤ N →
    ∀ (fuel : Nat) (rest : List Char), jsize v ≤ fuel →
    cleanVal v = true → intNums v = true → uniqKeys v = true → stopTok rest →
    parseValue fuel (stringifyVal v ++ rest) = .ok (v, rest) := by
  intro N
  induction N with
  | zero =>
    intro v hv
    exact absurd hv (by have := jsize_pos v; omega)
  | succ N ihN =>
    intro v hv fuel rest hfuel hc hi hu hrest
    obtain ⟨g, rfl⟩ : ∃ g, fuel = g + 1 := by
      have := jsize_pos v
      cases fuel with
      | zero => omega
      | succ g => exact ⟨g, rfl⟩
    cases v with
    | null =>
      rw [show stringifyVal JsonValue.null ++ rest = 'n' :: ('u' :: 'l' :: 'l' :: rest)
        from rfl]
      rw [parseValue.eq_def]
      dsimp only
      rw [skipWs_cons_not_ws 'n' _ (by decide)]
      dsimp only
      rw [if_neg (by decide), if_neg (by decide), if_neg (by decide), if_neg (by decide),
        if_neg (by decide), if_pos rfl]
      exact parseLiteral_self "null".data JsonValue.null rest
    | bool b =>
      cases b with
      | true =>
        rw [show stringifyVal (JsonValue.bool true) ++ rest =
          't' :: ('r' :: 'u' :: 'e' :: rest) from rfl]
        rw [parseValue.eq_def]
        dsimp only
        rw [skipWs_cons_not_ws 't' _ (by decide)]
        dsimp only
        rw [if_neg (by decide), if_neg (by decide), if_neg (by decide), if_pos rfl]
        exact parseLiteral_self "true".data (JsonValue.bool true) rest
      | false =>
        rw [show stringifyVal (JsonValue.bool false) ++ rest =
          'f' :: ('a' :: 'l' :: 's' :: 'e' :: rest) from rfl]
        rw [parseValue.eq_def]
        dsimp only
        rw [skipWs_cons_not_ws 'f' _ (by decide)]
        dsimp only
        rw [if_neg (by decide), if_neg (by decide), if_neg (by decide), if_neg (by decide),
          if_pos rfl]
        exact parseLiteral_self "false".data (JsonValue.bool false) rest
    | num q =>
      have hden : q.den = 1 := by simpa [intNums] using hi
      have hq : ((q.num : ℚ)) = q := by
        have h := Rat.num_div_den q
        rw [hden] at h
        simpa using h
      rw [show stringifyVal (JsonValue.num q) = intToDecimal q.num from by
        rw [stringifyVal, if_pos hden]]
      obtain ⟨c, cs, heq, hcd⟩ := intToDecimal_head q.num
      have hws : isWs c = false := by
        rcases hcd with rfl | hdig
        · decide
        · exact isDigit_not_ws c hdig
      have hnot : c ≠ '\x7b' ∧ c ≠ '[' ∧ c ≠ '"' ∧ c ≠ 't' ∧ c ≠ 'f' ∧ c ≠ 'n' := by
        rcases hcd with rfl | hdig
        · exact ⟨by decide, by decide, by decide, by decide, by decide, by decide⟩
        · exact ⟨isDigit_ne c _ hdig (by decide), isDigit_ne c _ hdig (by decide),
            isDigit_ne c _ hdig (by decide), isDigit_ne c _ hdig (by decide),
            isDigit_ne c _ hdig (by decide), isDigit_ne c _ hdig (by decide)⟩
      rw [heq, List.cons_append]
      rw [parseValue.eq_def]
      dsimp only
      rw [skipWs_cons_not_ws c _ hws]
      dsimp only
      rw [if_neg hnot.1, if_neg hnot.2.1, if_neg hnot.2.2.1, if_neg hnot.2.2.2.1,
        if_neg hnot.2.2.2.2.1, if_neg hnot.2.2.2.2.2, if_pos hcd]
      rw [← List.cons_append, ← heq]
      rw [intToDecimal_print q.num rest hrest, hq]
    | str s =>
      rw [show stringifyVal (JsonValue.str s) ++ rest =
        '"' :: (s.flatMap escCharOut ++ ('"' :: rest)) from by
          simp [stringifyVal, escapeString]]
      rw [parseValue.eq_def]
      dsimp only
      rw [skipWs_cons_not_ws '"' _ (by decide)]
      dsimp only
      rw [if_neg (by decide), if_neg (by decide), if_pos rfl]
      rw [show parseString ('"' :: (s.flatMap escCharOut ++ ('"' :: rest))) =
        parseStringLoop (s.flatMap escCharOut ++ ('"' :: rest)) from rfl]
      rw [parseStringLoop_print s rest (by simpa [cleanVal] using hc)]
    | arr vs =>
      rw [show stringifyVal (JsonValue.arr vs) ++ rest =
        '[' :: (stringifyList vs ++ (']' :: rest)) from by simp [stringifyVal]]
      rw [parseValue.eq_def]
      dsimp only
      rw [skipWs_cons_not_ws '[' _ (by decide)]
      dsimp only
      rw [if_neg (by decide), if_pos rfl]
      rw [parseArray.eq_def]
      dsimp only
      rw [if_pos rfl]
      cases vs with
      | nil =>
        rw [show stringifyList ([] : List JsonValue) ++ (']' :: rest) = ']' :: rest
          from rfl]
        rw [skipWs_cons_not_ws ']' _ (by decide)]
        dsimp only [List.head?_cons, List.tail_cons]
        rw [if_pos rfl]
      | cons w ws =>
        have hskip : skipWs (stringifyList (w :: ws) ++ (']' :: rest)) =
            stringifyList (w :: ws) ++ (']' :: rest) := by
          rw [stringifyList_cons w ws, List.append_assoc, skipWs_stringify w _,
            ← List.append_assoc, ← stringifyList_cons w ws]
        rw [hskip]
        have hne : (stringifyList (w :: ws) ++ (']' :: rest)).head? ≠ some ']' := by
          obtain ⟨c, cs, heq, -, hc1, -, -⟩ := stringify_headNice w
          rw [stringifyList_cons w ws, heq]
          simp [hc1]
        rw [if_neg hne]
        have hmem : ∀ x ∈ w :: ws, ∀ (f : Nat) (r : List Char), jsize x ≤ f →
            cleanVal x = true → intNums x = true → uniqKeys x = true → stopTok r →
            parseValue f (stringifyVal x ++ r) = .ok (x, r) := by
          intro x hx f r hf hcx hix hux hr
          have h2 := jsize_mem_list x (w :: ws) hx
          have h3 : jsize (JsonValue.arr (w :: ws)) ≤ N + 1 := hv
          rw [jsize] at h3
          exact ihN x (by omega) f r hf hcx hix hux hr
        rw [parseArrayLoop_print (w :: ws) hmem [] g rest (by simp)
          (by have h3 : jsize (JsonValue.arr (w :: ws)) ≤ g + 1 := hfuel
              rw [jsize] at h3; omega)
          (by simpa [cleanVal] using hc) (by simpa [intNums] using hi)
          (by simpa [uniqKeys] using hu) hrest]
        simp
    | obj es =>
      rw [show stringifyVal (JsonValue.obj es) ++ rest =
        '\x7b' :: (stringifyEntries es ++ ('\x7d' :: rest)) from by simp [stringifyVal]]
      rw [parseValue.eq_def]
      dsimp only
      rw [skipWs_cons_not_ws '\x7b' _ (by decide)]
      dsimp only
      rw [if_pos rfl]
      rw [parseObject.eq_def]
      dsimp only
      rw [if_pos rfl]
      cases es with
      | nil =>
        rw [show stringifyEntries ([] : List (List Char × JsonValue)) ++ ('\x7d' :: rest) =
          '\x7d' :: rest from rfl]
        rw [skipWs_cons_not_ws '\x7d' _ (by decide)]
        dsimp only [List.head?_cons, List.tail_cons]
        rw [if_pos rfl]
      | cons e es2 =>
        obtain ⟨k, v0⟩ := e
        have hent : stringifyEntries ((k, v0) :: es2) ++ ('\x7d' :: rest) =
            '"' :: (k.flatMap escCharOut ++
              ('"' :: (':' :: (stringifyVal v0 ++ stringifyEntrySep es2)) ++
                ('\x7d' :: rest))) := by
          rw [stringifyEntries_cons]
          simp [escapeString]
        rw [hent, skipWs_cons_not_ws '"' _ (by decide)]
        dsimp only [List.head?_cons]
        rw [if_neg (by decide)]
        rw [← hent]
        have hmem : ∀ x ∈ (k, v0) :: es2, ∀ (f : Nat) (r : List Char),
            jsize (Prod.snd x) ≤ f → cleanVal (Prod.snd x) = true →
            intNums (Prod.snd x) = true → uniqKeys (Prod.snd x) = true → stopTok r →
            parseValue f (stringifyVal (Prod.snd x) ++ r) = .ok (Prod.snd x, r) := by
          intro x hx f r hf hcx hix hux hr
          obtain ⟨xk, xv⟩ := x
          have h2 := jsize_mem_entries xk xv ((k, v0) :: es2) hx
          have h3 : jsize (JsonValue.obj ((k, v0) :: es2)) ≤ N + 1 := hv
          rw [jsize] at h3
          exact ihN xv (by omega) f r hf hcx hix hux hr
        have hnd : (([] : List (List Char × JsonValue)).map Prod.fst ++
            (((k, v0) :: es2).map Prod.fst)).Nodup := by
          have h4 : uniqKeys (JsonValue.obj ((k, v0) :: es2)) = true := hu
          rw [uniqKeys, Bool.and_eq_true, decide_eq_true_eq] at h4
          exact h4.1
        rw [parseObjectLoop_print ((k, v0) :: es2) hmem [] g rest (by simp)
          (by have h3 : jsize (JsonValue.obj ((k, v0) :: es2)) ≤ g + 1 := hfuel
              rw [jsize] at h3; omega)
          (by simpa [cleanVal] using hc) (by simpa [intNums] using hi)
          (by have h4 : uniqKeys (JsonValue.obj ((k, v0) :: es2)) = true := hu
              rw [uniqKeys, Bool.and_eq_true] at h4
              exact h4.2)
          hnd hrest]
        simp

theorem stringify_parse (v : JsonValue) (hc : cleanVal v = true) (hi : intNums v = true)
    (hu : uniqKeys v = true) :
    crest_json_parse (crest_json_stringify v) = .ok v := by
  have h := parseValue_print (jsize v) v le_rfl ((stringifyVal v).length + 1) []
    (by have := jsize_le_len v; omega) hc hi hu (Or.inl rfl)
  rw [List.append_nil] at h
  rw [crest_json_parse, crest_json_stringify]
  rw [show ((stringifyVal v).asString).data = stringifyVal v from rfl]
  rw [show ((stringifyVal v).asString).length = (stringifyVal v).length from rfl]
  rw [h]
  rfl

/- ============ JSON parse soundness: parsed objects have unique keys ============ -/

theorem jsonSet_keys (es : List (List Char × JsonValue)) (k : List Char) (v : JsonValue) :
    (jsonSet es k v).map Prod.fst =
      if k ∈ es.map Prod.fst then es.map Prod.fst else es.map Prod.fst ++ [k] := by
  induction es with
  | nil =>
    rw [show jsonSet [] k v = [(k, v)] from rfl]
    rw [if_neg (show ¬k ∈ List.map Prod.fst [] from List.not_mem_nil k)]
    rfl
  | cons e es ih =>
    obtain ⟨k0, v0⟩ := e
    by_cases h : k0 = k
    · subst h
      rw [jsonSet, if_pos rfl]
      rw [if_pos (by rw [List.map_cons]; exact List.mem_cons_self k0 _)]
      rfl
    · rw [jsonSet, if_neg h]
      simp only [List.map_cons, List.mem_cons]
      rw [ih]
      by_cases h2 : k ∈ es.map Prod.fst
      · rw [if_pos h2, if_pos (Or.inr h2)]
      · rw [if_neg h2, if_neg (by
          rintro (h3 | h3)
          · exact h h3.symm
          · exact h2 h3)]
        rfl

theorem jsonSet_nodup (es : List (List Char × JsonValue)) (k : List Char) (v : JsonValue)
    (h : (es.map Prod.fst).Nodup) : ((jsonSet es k v).map Prod.fst).Nodup := by
  rw [jsonSet_keys]
  split
  · exact h
  · rename_i h2
    exact h.append (List.nodup_singleton k)
      (by
        intro a ha hb
        rw [List.mem_singleton] at hb
        subst hb
        exact h2 ha)

theorem uniqKeysList_append (l1 l2 : List JsonValue) :
    uniqKeysList (l1 ++ l2) = (uniqKeysList l1 && uniqKeysList l2) := by
  induction l1 with
  | nil => rfl
  | cons v vs ih =>
    rw [List.cons_append]
    rw [show uniqKeysList (v :: (vs ++ l2)) = (uniqKeys v && uniqKeysList (vs ++ l2))
      from rfl]
    rw [show uniqKeysList (v :: vs) = (uniqKeys v && uniqKeysList vs) from rfl]
    rw [ih, Bool.and_assoc]

theorem jsonSet_uniq (es : List (List Char × JsonValue)) (k : List Char) (v : JsonValue)
    (he : uniqKeysEntries es = true) (hv : uniqKeys v = true) :
    uniqKeysEntries (jsonSet es k v) = true := by
  induction es with
  | nil =>
    rw [show jsonSet [] k v = [(k, v)] from rfl]
    rw [show uniqKeysEntries [(k, v)] = (uniqKeys v && uniqKeysEntries []) from rfl]
    rw [hv]
    rfl
  | cons e es ih =>
    obtain ⟨k0, v0⟩ := e
    rw [show uniqKeysEntries ((k0, v0) :: es) = (uniqKeys v0 && uniqKeysEntries es)
      from rfl, Bool.and_eq_true] at he
    by_cases h : k0 = k
    · subst h
      rw [jsonSet, if_pos rfl]
      rw [show uniqKeysEntries ((k0, v) :: es) = (uniqKeys v && uniqKeysEntries es)
        from rfl, Bool.and_eq_true]
      exact ⟨hv, he.2⟩
    · rw [jsonSet, if_neg h]
      rw [show uniqKeysEntries ((k0, v0) :: jsonSet es k v) =
        (uniqKeys v0 && uniqKeysEntries (jsonSet es k v)) from rfl, Bool.and_eq_true]
      exact ⟨he.1, ih he.2⟩

theorem parseLiteral_ok (lit : List Char) (v w : JsonValue) (s rest : List Char)
    (h : parseLiteral lit v s = .ok (w, rest)) : w = v := by
  unfold parseLiteral at h
  split_ifs at h <;>
    first
    | exact Except.noConfusion h
    | (simp only [Except.ok.injEq, Prod.mk.injEq] at h; exact h.1.symm)

theorem parseNumber_ok (s : List Char) (v : JsonValue) (rest : List Char)
    (h : parseNumber s = .ok (v, rest)) : ∃ q, v = .num q := by
  rw [parseNumber] at h
  dsimp only at h
  split at h
  · exact Except.noConfusion h
  · split_ifs at h <;>
      (repeat' split at h) <;>
      first
      | exact Except.noConfusion h
      | (simp only [Except.ok.injEq, Prod.mk.injEq] at h; exact ⟨_, h.1.symm⟩)

theorem parse_sound : ∀ fuel : Nat,
    (∀ s v rest, parseValue fuel s = .ok (v, rest) → uniqKeys v = true) ∧
    (∀ acc s v rest, uniqKeysList acc = true →
      parseArrayLoop fuel acc s = .ok (v, rest) → uniqKeys v = true) ∧
    (∀ acc s v rest, uniqKeysEntries acc = true → (acc.map Prod.fst).Nodup →
      parseObjectLoop fuel acc s = .ok (v, rest) → uniqKeys v = true) := by
  intro fuel
  induction fuel with
  | zero =>
    refine ⟨?_, ?_, ?_⟩
    · intro s v rest h
      rw [parseValue.eq_def] at h
      dsimp only at h
      exact Except.noConfusion h
    · intro acc s v rest _ h
      cases s with
      | nil =>
        rw [parseArrayLoop.eq_def] at h
        dsimp only at h
        exact Except.noConfusion h
      | cons c cs =>
        rw [parseArrayLoop.eq_def] at h
        dsimp only at h
        exact Except.noConfusion h
    · intro acc s v rest _ _ h
      cases s with
      | nil =>
        rw [parseObjectLoop.eq_def] at h
        dsimp only at h
        exact Except.noConfusion h
      | cons c cs =>
        rw [parseObjectLoop.eq_def] at h
        dsimp only at h
        exact Except.noConfusion h
  | succ f ih =>
    refine ⟨?_, ?_, ?_⟩
    · intro s v rest h
      rw [parseValue.eq_def] at h
      dsimp only at h
      split at h
      · exact Except.noConfusion h
      · rename_i c cs heq
        split_ifs at h with h1 h2 h3 h4 h5 h6 h7
        · rw [parseObject.eq_def] at h
          dsimp only at h
          rw [if_pos h1] at h
          split_ifs at h with h8
          · simp only [Except.ok.injEq, Prod.mk.injEq] at h
            rw [← h.1]
            decide
          · exact ih.2.2 [] _ v rest rfl List.nodup_nil h
        · rw [parseArray.eq_def] at h
          dsimp only at h
          rw [if_pos h2] at h
          split_ifs at h with h8
          · simp only [Except.ok.injEq, Prod.mk.injEq] at h
            rw [← h.1]
            decide
          · exact ih.2.1 [] _ v rest rfl h
        · split at h
          · exact Except.noConfusion h
          · rename_i p heq2
            simp only [Except.ok.injEq, Prod.mk.injEq] at h
            rw [← h.1]
            rfl
        · rw [parseLiteral_ok _ _ _ _ _ h]
          decide
        · rw [parseLiteral_ok _ _ _ _ _ h]
          decide
        · rw [parseLiteral_ok _ _ _ _ _ h]
          decide
        · obtain ⟨q, rfl⟩ := parseNumber_ok _ _ _ h
          rfl
    · intro acc s v rest hacc h
      cases s with
      | nil =>
        rw [parseArrayLoop.eq_def] at h
        dsimp only at h
        exact Except.noConfusion h
      | cons c0 cs0 =>
        rw [parseArrayLoop.eq_def] at h
        dsimp only at h
        split at h
        · exact Except.noConfusion h
        · rename_i w r1 heq
          have hw : uniqKeys w = true := ih.1 _ _ _ heq
          split at h
          · exact Except.noConfusion h
          · rename_i c r3 heq2
            split_ifs at h with h1 h2
            · simp only [Except.ok.injEq, Prod.mk.injEq] at h
              rw [← h.1]
              rw [uniqKeys, uniqKeysList_append]
              simp [hacc, hw, uniqKeysList]
            · exact ih.2.1 (acc ++ [w]) _ v rest
                (by rw [uniqKeysList_append]; simp [hacc, hw, uniqKeysList]) h
    · intro acc s v rest hacc hnd h
      cases s with
      | nil =>
        rw [parseObjectLoop.eq_def] at h
        dsimp only at h
        exact Except.noConfusion h
      | cons c0 cs0 =>
        rw [parseObjectLoop.eq_def] at h
        dsimp only at h
        split_ifs at h with h1
        · split at h
          · exact Except.noConfusion h
          · rename_i key r1 heq
            split_ifs at h with h2
            · split at h
              · exact Except.noConfusion h
              · rename_i w r4 heq2
                have hw : uniqKeys w = true := ih.1 _ _ _ heq2
                split at h
                · exact Except.noConfusion h
                · rename_i c r6 heq3
                  split_ifs at h with h3 h4
                  · simp only [Except.ok.injEq, Prod.mk.injEq] at h
                    rw [← h.1]
                    rw [uniqKeys, Bool.and_eq_true, decide_eq_true_eq]
                    exact ⟨jsonSet_nodup acc key w hnd, jsonSet_uniq acc key w hacc hw⟩
                  · exact ih.2.2 (jsonSet acc key w) _ v rest
                      (jsonSet_uniq acc key w hacc hw) (jsonSet_nodup acc key w hnd) h

theorem crest_json_parse_uniq (s : String) (v : JsonValue)
    (h : crest_json_parse s = .ok v) : uniqKeys v = true := by
  rw [crest_json_parse] at h
  split at h
  · exact Except.noConfusion h
  · rename_i w rest heq
    split_ifs at h
    simp only [Except.ok.injEq] at h
    rw [← h]
    exact (parse_sound _).1 _ _ _ heq

/-- C1 (counterexample): the round trip fails on a value the parser
itself produced.  `parse_string` copies a raw control character 0x01
verbatim, so `crest_json_parse` accepts `"\x01"` and returns the
one-character string; `escape_string` then emits it as `\u0001`, which
`parse_string` rejects (`\u` escapes are unsupported), so reparsing the
stringified value fails instead of returning the value. -/
theorem json_roundtrip_control_char_fails :
    crest_json_parse ⟨['"', '\x01', '"']⟩ = .ok (.str ['\x01']) ∧
    crest_json_stringify (.str ['\x01']) = "\"\\u0001\"" ∧
    crest_json_parse (crest_json_stringify (.str ['\x01'])) =
      .error "Unicode escapes not fully supported yet" := by
  refine ⟨?_, rfl, ?_⟩
  · simp [crest_json_parse, parseValue, parseString, parseStringLoop, skipWs, isWs,
      List.dropWhile, String.length, escChar, Except.map]
  · simp [crest_json_parse, crest_json_stringify, parseValue, parseString, parseStringLoop,
      skipWs, isWs, List.dropWhile, String.length, stringifyVal, escapeString, escCharOut,
      hexDigit, List.asString, escChar, Except.map]

/-- C1 (amended): for every value `V` successfully returned by
`crest_json_parse` all of whose strings and object keys survive escaping
(no control characters outside the five short escapes) and all of whose
numbers are integral (the `%lld` branch of the serializer),
`crest_json_parse (crest_json_stringify V)` returns a value structurally
equal to `V`: same tags, same key order, same array order, numerically
equal numbers.  The unique-keys invariant needed for the object case is
not an extra hypothesis: every parsed value has it, because object
members are inserted with `crest_json_set`. -/
theorem json_roundtrip_parsed (s : String) (v : JsonValue)
    (h : crest_json_parse s = .ok v)
    (hclean : cleanVal v = true) (hint : intNums v = true) :
    crest_json_parse (crest_json_stringify v) = .ok v :=
  stringify_parse v hclean hint (crest_json_parse_uniq s v h)

theorem json_roundtrip_parsed_witness :
    crest_json_parse (crest_json_stringify
      (.obj [(['a'], .arr [.num 1, .bool true, .null, .str ['x']])])) =
      .ok (.obj [(['a'], .arr [.num 1, .bool true, .null, .str ['x']])]) :=
  json_roundtrip_parsed "\x7b\"a\":[1,true,null,\"x\"]\x7d"
    (.obj [(['a'], .arr [.num 1, .bool true, .null, .str ['x']])])
    (by simp [crest_json_parse, parseValue, parseString, parseStringLoop, skipWs, isWs,
          List.dropWhile, String.length, escChar, Except.map, parseObject, parseObjectLoop,
          parseArray, parseArrayLoop, parseLiteral, parseNumber, parseFrac, parseExp,
          List.isPrefixOf, digitsVal, digitVal, jsonSet])
    (by rfl) (by rfl)

/-- C8: `crest_json_parse` fails with a diagnostic and no value on the
empty input, a lone opening brace, a truncated array, and an unterminated
string; and whenever the top-level value is followed by trailing
non-whitespace, the whole parse fails with `Extra data after value`. -/
theorem json_parse_failure_modes :
    crest_json_parse "" = .error "Unexpected end of input" ∧
    crest_json_parse "\x7b" = .error "Unterminated object" ∧
    crest_json_parse "[1,2," = .error "Unterminated array" ∧
    crest_json_parse "\"unterminated" = .error "Unterminated string" ∧
    (∀ (s : String) (v : JsonValue) (rest : List Char),
      parseValue (s.length + 1) s.data = .ok (v, rest) →
      (skipWs rest).isEmpty = false →
      crest_json_parse s = .error "Extra data after value") := by
  refine ⟨?_, ?_, ?_, ?_, ?_⟩
  · simp [crest_json_parse, parseValue, skipWs, isWs, List.dropWhile, String.length]
  · simp [crest_json_parse, parseValue, parseObject, parseObjectLoop, skipWs, isWs,
      List.dropWhile, String.length]
  · simp [crest_json_parse, parseValue, parseArray, parseArrayLoop, parseNumber,
      parseFrac, parseExp, skipWs, isWs, List.dropWhile, String.length, digitsVal,
      digitVal, Except.map]
  · simp [crest_json_parse, parseValue, parseString, parseStringLoop, skipWs, isWs,
      List.dropWhile, String.length, escChar, Except.map]
  · intro s v rest h hne
    rw [crest_json_parse, h]
    dsimp only
    rw [if_neg (by rw [hne]; exact Bool.false_ne_true)]

theorem json_parse_failure_modes_witness :
    crest_json_parse "1 x" = .error "Extra data after value" :=
  json_parse_failure_modes.2.2.2.2 "1 x" (.num 1) [' ', 'x']
    (by simp [parseValue, parseNumber, parseFrac, parseExp, skipWs, isWs,
          List.dropWhile, String.length, digitsVal, digitVal])
    (by rfl)

/- =============== The 404 payload as a serialized JSON tree =============== -/

theorem escCharOut_raw (c : Char) (h : rawChar c = true) : escCharOut c = [c] := by
  simp only [rawChar, Bool.and_eq_true, decide_eq_true_eq] at h
  obtain ⟨⟨h1, h2⟩, h3⟩ := h
  rw [escCharOut]
  rw [if_neg (by simpa using h1), if_neg (by simpa using h2)]
  rw [if_neg (by rintro rfl; exact absurd h3 (by decide))]
  rw [if_neg (by rintro rfl; exact absurd h3 (by decide))]
  rw [if_neg (by rintro rfl; exact absurd h3 (by decide))]
  rw [if_neg (by rintro rfl; exact absurd h3 (by decide))]
  rw [if_neg (by rintro rfl; exact absurd h3 (by decide))]
  rw [if_neg (by omega)]

theorem flatMap_escCharOut_raw (s : List Char) (h : s.all rawChar = true) :
    s.flatMap escCharOut = s := by
  induction s with
  | nil => rfl
  | cons c cs ih =>
    rw [List.all_cons, Bool.and_eq_true] at h
    rw [List.flatMap_cons, escCharOut_raw c h.1, ih h.2]
    rfl

theorem escapeString_raw (s : List Char) (h : s.all rawChar = true) :
    escapeString s = '"' :: (s ++ ['"']) := by
  rw [escapeString, flatMap_escCharOut_raw s h]
  rfl

theorem rawChar_clean (c : Char) (h : rawChar c = true) : cleanChar c = true := by
  simp only [rawChar, Bool.and_eq_true, decide_eq_true_eq] at h
  simp only [cleanChar, Bool.or_eq_true, decide_eq_true_eq]
  exact Or.inl (Or.inl (Or.inl (Or.inl (Or.inl h.2))))

theorem rawOk_clean (s : String) (h : rawOk s = true) : cleanStr s.data = true := by
  rw [rawOk] at h
  rw [cleanStr]
  simp only [List.all_eq_true] at h ⊢
  exact fun c hc => rawChar_clean c (h c hc)

theorem methodName_raw (m : Nat) : rawOk (methodName m) = true := by
  rw [methodName]
  rcases m with _|_|_|_|_|_|_|n
  · decide
  · decide
  · decide
  · decide
  · decide
  · decide
  · decide
  · rfl

theorem routeEntryStr_data {H : Type} (r : Route H) (hp : rawOk r.path = true)
    (hd : ∀ d, r.description = some d → rawOk d = true) :
    (routeEntryStr r).data = stringifyVal (routeEntryVal r) := by
  have h1 := escapeString_raw r.path.data hp
  have h2 := escapeString_raw (methodName r.method).data (methodName_raw r.method)
  have h3 := escapeString_raw "method".data (by decide)
  have h4 := escapeString_raw "path".data (by decide)
  have h5 := escapeString_raw "description".data (by decide)
  cases hdesc : r.description with
  | none =>
    rw [routeEntryStr, hdesc, routeEntryVal, hdesc]
    simp [String.data_append, stringifyVal, stringifyEntries, stringifyEntrySep,
      h1, h2, h3, h4, h5]
  | some d =>
    have h6 := escapeString_raw d.data (hd d hdesc)
    rw [routeEntryStr, hdesc, routeEntryVal, hdesc]
    simp [String.data_append, stringifyVal, stringifyEntries, stringifyEntrySep,
      h1, h2, h3, h4, h5, h6]


theorem catRoutes_false_data {H : Type} (rs : List (Route H))
    (h : ∀ r ∈ rs, rawOk r.path = true ∧ ∀ d, r.description = some d → rawOk d = true) :
    (catRoutes rs false).data = stringifySep (rs.map routeEntryVal) := by
  induction rs with
  | nil => rfl
  | cons r rs ih =>
    rw [show catRoutes (r :: rs) false = "," ++ routeEntryStr r ++ catRoutes rs false
      from rfl]
    rw [show List.map routeEntryVal (r :: rs) =
      routeEntryVal r :: List.map routeEntryVal rs from rfl]
    rw [stringifySep, stringifyList_cons]
    simp [String.data_append,
      routeEntryStr_data r (h r (List.mem_cons_self r rs)).1 (h r (List.mem_cons_self r rs)).2,
      ih fun x hx => h x (List.mem_cons_of_mem r hx)]

theorem catRoutes_true_data {H : Type} (rs : List (Route H))
    (h : ∀ r ∈ rs, rawOk r.path = true ∧ ∀ d, r.description = some d → rawOk d = true) :
    (catRoutes rs true).data = stringifyList (rs.map routeEntryVal) := by
  cases rs with
  | nil => rfl
  | cons r rs =>
    rw [show catRoutes (r :: rs) true = "" ++ routeEntryStr r ++ catRoutes rs false
      from rfl]
    rw [show List.map routeEntryVal (r :: rs) =
      routeEntryVal r :: List.map routeEntryVal rs from rfl]
    rw [stringifyList_cons]
    simp [String.data_append,
      routeEntryStr_data r (h r (List.mem_cons_self r rs)).1 (h r (List.mem_cons_self r rs)).2,
      catRoutes_false_data rs fun x hx => h x (List.mem_cons_of_mem r hx)]


set_option maxHeartbeats 2000000 in
set_option maxRecDepth 40000 in
theorem generate404_data {H : Type} (routes : List (Route H)) (req : Request)
    (timestamp : String)
    (hp : rawOk req.path = true) (hts : rawOk timestamp = true)
    (hr : ∀ r ∈ routes, rawOk r.path = true ∧
      ∀ d, r.description = some d → rawOk d = true) :
    (generate_detailed_404_error routes req timestamp).data =
      stringifyVal (v404 routes req timestamp) := by
  have h1 := escapeString_raw req.path.data hp
  have h2 := escapeString_raw (methodName req.method).data (methodName_raw req.method)
  have h3 := escapeString_raw timestamp.data hts
  have hcat := catRoutes_true_data (routes.take 10)
    fun r hx => hr r (List.mem_of_mem_take hx)
  have k1 := escapeString_raw "error".data (by decide)
  have k2 := escapeString_raw "message".data (by decide)
  have k3 := escapeString_raw "details".data (by decide)
  have k4 := escapeString_raw "requested_path".data (by decide)
  have k5 := escapeString_raw "requested_method".data (by decide)
  have k6 := escapeString_raw "timestamp".data (by decide)
  have k7 := escapeString_raw "server".data (by decide)
  have k8 := escapeString_raw "suggestions".data (by decide)
  have k9 := escapeString_raw "available_routes".data (by decide)
  have k10 := escapeString_raw "warnings".data (by decide)
  have v1 := escapeString_raw "Not Found".data (by decide)
  have v2 := escapeString_raw "Route not found".data (by decide)
  have v3 := escapeString_raw ('C' :: 'r' :: 'e' :: 's' :: 't' :: '/' :: CREST_VERSION.data)
    (by decide)
  have s1 := escapeString_raw "Check if the URL is correct and properly encoded".data
    (by decide)
  have s2 := escapeString_raw
    "Ensure you\x27re using the correct HTTP method (GET, POST, etc.)".data (by decide)
  have s3 := escapeString_raw "Verify that the endpoint exists in your application".data
    (by decide)
  have s4 := escapeString_raw "Check for trailing slashes or case sensitivity issues".data
    (by decide)
  have w1 := escapeString_raw "This endpoint does not exist in the application".data
    (by decide)
  have w2 := escapeString_raw "Consider checking the API documentation or dashboard".data
    (by decide)
  have w3 := escapeString_raw
    "No routes have been registered with the application".data (by decide)
  rw [generate_detailed_404_error, v404]
  by_cases hlen : routes.length = 0
  · simp [hlen, String.data_append, stringifyVal, stringifyEntries, stringifyList,
      stringifySep, stringifyEntrySep, hcat, h1, h2, h3, k1, k2, k3, k4, k5, k6, k7,
      k8, k9, k10, v1, v2, v3, s1, s2, s3, s4, w1, w2, w3]
  · simp [hlen, String.data_append, stringifyVal, stringifyEntries, stringifyList,
      stringifySep, stringifyEntrySep, hcat, h1, h2, h3, k1, k2, k3, k4, k5, k6, k7,
      k8, k9, k10, v1, v2, v3, s1, s2, s3, s4, w1, w2, w3]


theorem routeEntryVal_clean {H : Type} (r : Route H) (hp : rawOk r.path = true)
    (hd : ∀ d, r.description = some d → rawOk d = true) :
    cleanVal (routeEntryVal r) = true := by
  have hm := rawOk_clean (methodName r.method) (methodName_raw r.method)
  have hpc := rawOk_clean r.path hp
  simp only [cleanStr, List.all_eq_true, cleanChar, Bool.or_eq_true, decide_eq_true_eq] at hm hpc
  cases hdesc : r.description with
  | none =>
    simp [routeEntryVal, hdesc, cleanVal, cleanEntries, cleanStr, cleanChar]
    exact ⟨hm, hpc⟩
  | some d =>
    have hdc := rawOk_clean d (hd d hdesc)
    simp only [cleanStr, List.all_eq_true, cleanChar, Bool.or_eq_true, decide_eq_true_eq] at hdc
    simp [routeEntryVal, hdesc, cleanVal, cleanEntries, cleanStr, cleanChar]
    exact ⟨hm, hpc, hdc⟩

theorem routeEntryVal_intNums {H : Type} (r : Route H) :
    intNums (routeEntryVal r) = true := by
  cases hdesc : r.description with
  | none => simp [routeEntryVal, hdesc, intNums, intNumsEntries]
  | some d => simp [routeEntryVal, hdesc, intNums, intNumsEntries]

theorem routeEntryVal_uniq {H : Type} (r : Route H) :
    uniqKeys (routeEntryVal r) = true := by
  cases hdesc : r.description with
  | none => simp [routeEntryVal, hdesc, uniqKeys, uniqKeysEntries]
  | some d => simp [routeEntryVal, hdesc, uniqKeys, uniqKeysEntries]

theorem routeEntryList_clean {H : Type} (rs : List (Route H))
    (h : ∀ r ∈ rs, rawOk r.path = true ∧ ∀ d, r.description = some d → rawOk d = true) :
    cleanList (rs.map routeEntryVal) = true := by
  induction rs with
  | nil => rfl
  | cons r rs ih =>
    rw [show List.map routeEntryVal (r :: rs) =
      routeEntryVal r :: List.map routeEntryVal rs from rfl]
    rw [show cleanList (routeEntryVal r :: List.map routeEntryVal rs) =
      (cleanVal (routeEntryVal r) && cleanList (List.map routeEntryVal rs)) from rfl]
    rw [routeEntryVal_clean r (h r (List.mem_cons_self r rs)).1
      (h r (List.mem_cons_self r rs)).2,
      ih fun x hx => h x (List.mem_cons_of_mem r hx)]
    rfl

theorem routeEntryList_intNums {H : Type} (rs : List (Route H)) :
    intNumsList (rs.map routeEntryVal) = true := by
  induction rs with
  | nil => rfl
  | cons r rs ih =>
    rw [show List.map routeEntryVal (r :: rs) =
      routeEntryVal r :: List.map routeEntryVal rs from rfl]
    rw [show intNumsList (routeEntryVal r :: List.map routeEntryVal rs) =
      (intNums (routeEntryVal r) && intNumsList (List.map routeEntryVal rs)) from rfl]
    rw [routeEntryVal_intNums r, ih]
    rfl

theorem routeEntryList_uniq {H : Type} (rs : List (Route H)) :
    uniqKeysList (rs.map routeEntryVal) = true := by
  induction rs with
  | nil => rfl
  | cons r rs ih =>
    rw [show List.map routeEntryVal (r :: rs) =
      routeEntryVal r :: List.map routeEntryVal rs from rfl]
    rw [show uniqKeysList (routeEntryVal r :: List.map routeEntryVal rs) =
      (uniqKeys (routeEntryVal r) && uniqKeysList (List.map routeEntryVal rs)) from rfl]
    rw [routeEntryVal_uniq r, ih]
    rfl


set_option maxHeartbeats 1000000 in
set_option maxRecDepth 40000 in
theorem v404_clean {H : Type} (routes : List (Route H)) (req : Request)
    (timestamp : String) (hp : rawOk req.path = true) (hts : rawOk timestamp = true)
    (hr : ∀ r ∈ routes, rawOk r.path = true ∧
      ∀ d, r.description = some d → rawOk d = true) :
    cleanVal (v404 routes req timestamp) = true := by
  have hm := rawOk_clean (methodName req.method) (methodName_raw req.method)
  have hpc := rawOk_clean req.path hp
  have htc := rawOk_clean timestamp hts
  have hlist := routeEntryList_clean (routes.take 10)
    fun r hx => hr r (List.mem_of_mem_take hx)
  simp only [List.map_take] at hlist
  simp only [cleanStr, List.all_eq_true, cleanChar, Bool.or_eq_true,
    decide_eq_true_eq] at hm hpc htc
  by_cases hlen : routes.length = 0
  · simp [v404, hlen, cleanVal, cleanEntries, cleanList, cleanStr, cleanChar, hlist]
    exact ⟨hpc, hm, htc, by decide⟩
  · simp [v404, hlen, cleanVal, cleanEntries, cleanList, cleanStr, cleanChar, hlist]
    exact ⟨hpc, hm, htc, by decide⟩

set_option maxHeartbeats 1000000 in
set_option maxRecDepth 40000 in
theorem v404_intNums {H : Type} (routes : List (Route H)) (req : Request)
    (timestamp : String) : intNums (v404 routes req timestamp) = true := by
  have hlist := routeEntryList_intNums (H := H) (routes.take 10)
  simp only [List.map_take] at hlist
  by_cases hlen : routes.length = 0
  · simp [v404, hlen, intNums, intNumsEntries, intNumsList, hlist]
  · simp [v404, hlen, intNums, intNumsEntries, intNumsList, hlist]

set_option maxHeartbeats 1000000 in
set_option maxRecDepth 40000 in
theorem v404_uniq {H : Type} (routes : List (Route H)) (req : Request)
    (timestamp : String) : uniqKeys (v404 routes req timestamp) = true := by
  have hlist := routeEntryList_uniq (H := H) (routes.take 10)
  simp only [List.map_take] at hlist
  by_cases hlen : routes.length = 0
  · simp [v404, hlen, uniqKeys, uniqKeysEntries, uniqKeysList, hlist]
  · simp [v404, hlen, uniqKeys, uniqKeysEntries, uniqKeysList, hlist]


theorem response_json_status (res : Response) (b : String) :
    (crest_response_json res b).status_code = res.status_code := by
  simp only [crest_response_json, crest_response_send, crest_response_header]
  split_ifs <;> rfl

theorem response_json_body (res : Response) (b : String) :
    (crest_response_json res b).body = some b := by
  simp only [crest_response_json, crest_response_send, crest_response_header]
  split_ifs <;> rfl

theorem handle_request_404 (app : App) (req : Request) (timestamp : String)
    (hmw : (runMiddleware app.middleware req createResponse).1 = true)
    (hfind : find_route app.routes req.method req.path = none) :
    handle_request app req timestamp =
      crest_response_json
        (crest_response_status (runMiddleware app.middleware req createResponse).2 404)
        (generate_detailed_404_error app.routes req timestamp) := by
  rw [handle_request]
  dsimp only
  rw [hmw, hfind]
  dsimp only
  rw [if_pos rfl]
  rw [if_neg (by
    rw [response_json_status]
    simp [crest_response_status])]

/-- C9: for every request whose (method, path) matches no registered route
and which no middleware halts (with verbatim-safe path, timestamp and
route descriptions), `handle_connection` responds with status 404 and a
body that is exactly the serialized `v404` tree: a JSON object with the
keys `error`, `message`, `details` (containing `requested_path`,
`requested_method` and `timestamp`, echoing the request), and
`available_routes` listing at most the first 10 registered routes.  (The
C builds the body in a 4096-byte buffer; truncation beyond that is
outside the model.) -/
theorem http_404_detailed_body (app : App) (req : Request) (timestamp : String)
    (hmw : (runMiddleware app.middleware req createResponse).1 = true)
    (hfind : find_route app.routes req.method req.path = none)
    (hp : rawOk req.path = true) (hts : rawOk timestamp = true)
    (hr : ∀ r ∈ app.routes, rawOk r.path = true ∧
      ∀ d, r.description = some d → rawOk d = true) :
    (handle_request app req timestamp).status_code = 404 ∧
    (handle_request app req timestamp).body =
      some (generate_detailed_404_error app.routes req timestamp) ∧
    crest_json_parse (generate_detailed_404_error app.routes req timestamp) =
      .ok (v404 app.routes req timestamp) ∧
    (∃ es des ars,
      v404 app.routes req timestamp = .obj es ∧
      jsonGet es "error".data = some (.str "Not Found".data) ∧
      jsonGet es "message".data = some (.str "Route not found".data) ∧
      jsonGet es "details".data = some (.obj des) ∧
      jsonGet des "requested_path".data = some (.str req.path.data) ∧
      jsonGet des "requested_method".data = some (.str (methodName req.method).data) ∧
      jsonGet des "timestamp".data = some (.str timestamp.data) ∧
      jsonGet es "available_routes".data = some (.arr ars) ∧
      ars = (app.routes.take 10).map routeEntryVal ∧ ars.length ≤ 10) := by
  have hgen : generate_detailed_404_error app.routes req timestamp =
      crest_json_stringify (v404 app.routes req timestamp) := by
    apply String.ext
    rw [generate404_data app.routes req timestamp hp hts hr]
    rfl
  refine ⟨?_, ?_, ?_, ?_⟩
  · rw [handle_request_404 app req timestamp hmw hfind, response_json_status]
    rfl
  · rw [handle_request_404 app req timestamp hmw hfind, response_json_body]
  · rw [hgen]
    exact stringify_parse _ (v404_clean app.routes req timestamp hp hts hr)
      (v404_intNums app.routes req timestamp) (v404_uniq app.routes req timestamp)
  · refine ⟨_, _, (app.routes.take 10).map routeEntryVal, rfl, rfl, rfl, rfl, rfl, rfl,
      rfl, rfl, rfl, ?_⟩
    rw [List.length_map, List.length_take]
    exact Nat.min_le_left 10 _

theorem http_404_detailed_body_witness :
    (handle_request app404 req404 "2026-01-01T00:00:00").status_code = 404 ∧
    (handle_request app404 req404 "2026-01-01T00:00:00").body =
      some (generate_detailed_404_error app404.routes req404 "2026-01-01T00:00:00") := by
  have h := http_404_detailed_body app404 req404 "2026-01-01T00:00:00"
    rfl rfl (by decide) (by decide)
    (by
      intro r hrr
      rw [show app404.routes = [route404] from rfl, List.mem_singleton] at hrr
      subst hrr
      refine ⟨by decide, fun d hd => ?_⟩
      rw [show route404.description = some "Say hello" from rfl,
        Option.some.injEq] at hd
      subst hd
      decide)
  exact ⟨h.1, h.2.1⟩

end Crest
